import Mathlib

set_option maxRecDepth 8000

/-!
Verification development for the evidence-grounding core of the
thematic-lm repository (chunking, quote-span normalization, quote-id
codec, resilient JSON extraction, retry loop, coder agent).

Python strings are modeled as lists of Unicode scalar values
(`List Char`); `s[a:b]` slicing for `0 ≤ a ≤ b` is `sliceL` (which, like
Python, clamps at the end of the string).
-/

deriving instance DecidableEq for Except

namespace ThematicLM

abbrev PyStr := List Char

def chars (s : String) : PyStr := s.toList

/-- Python `s[a:b]` for non-negative bounds (clamps past the end, like Python). -/
def sliceL (l : PyStr) (s e : Nat) : PyStr := (l.drop s).take (e - s)

theorem sliceL_length (l : PyStr) (s e : Nat) :
    (sliceL l s e).length = min (e - s) (l.length - s) := by
  simp [sliceL]

theorem sliceL_append_drop (l : PyStr) {a b : Nat} (hab : a ≤ b) :
    sliceL l a b ++ l.drop b = l.drop a := by
  have h1 : l.drop a = (l.drop a).take (b - a) ++ (l.drop a).drop (b - a) :=
    (List.take_append_drop (b - a) (l.drop a)).symm
  have h2 : (l.drop a).drop (b - a) = l.drop b := by
    rw [List.drop_drop]
    congr 1
    omega
  rw [sliceL, ← h2, ← h1]

/-! ## Decimal digits (Python `\d`, `int()` conversion, `str()` rendering of
a non-negative integer). -/

def isAsciiDigit (c : Char) : Bool := '0' ≤ c && c ≤ '9'

def digitVal (c : Char) : Nat := c.toNat - '0'.toNat

def digitCh : Nat → Char
  | 0 => '0' | 1 => '1' | 2 => '2' | 3 => '3' | 4 => '4'
  | 5 => '5' | 6 => '6' | 7 => '7' | 8 => '8' | _ => '9'

/-- Little-endian base-10 digits, with explicit fuel so that the kernel can
evaluate it (agrees with `Nat.digits 10` for sufficient fuel). -/
def natDigitsRev (fuel n : Nat) : List Nat :=
  match fuel with
  | 0 => []
  | fuel + 1 => if n = 0 then [] else n % 10 :: natDigitsRev fuel (n / 10)

theorem natDigitsRev_eq_digits (fuel n : Nat) (h : n ≤ fuel) :
    natDigitsRev fuel n = Nat.digits 10 n := by
  induction fuel generalizing n with
  | zero =>
    have : n = 0 := by omega
    subst this
    simp [natDigitsRev]
  | succ fuel ih =>
    by_cases hn : n = 0
    · subst hn; simp [natDigitsRev]
    · rw [natDigitsRev, if_neg hn, Nat.digits_def' (by norm_num : (1:Nat) < 10) (by omega),
        ih (n / 10) (by omega)]

/-- Python `str(n)` for a natural number. -/
def natToChars (n : Nat) : PyStr :=
  if n = 0 then ['0'] else (natDigitsRev n n).reverse.map digitCh

theorem natToChars_eq (n : Nat) :
    natToChars n = if n = 0 then ['0'] else (Nat.digits 10 n).reverse.map digitCh := by
  unfold natToChars
  rw [natDigitsRev_eq_digits n n le_rfl]

/-- Python `int(s)` on a string of ASCII digits. -/
def parseNat (l : PyStr) : Nat := l.foldl (fun a c => a * 10 + digitVal c) 0

theorem digitVal_digitCh {d : Nat} (h : d < 10) : digitVal (digitCh d) = d := by
  interval_cases d <;> decide

theorem isAsciiDigit_digitCh {d : Nat} (h : d < 10) : isAsciiDigit (digitCh d) = true := by
  interval_cases d <;> decide

theorem foldl_digitCh_reverse (L : List Nat) (acc : Nat) (hL : ∀ d ∈ L, d < 10) :
    ((L.reverse.map digitCh).foldl (fun a c => a * 10 + digitVal c) acc)
      = acc * 10 ^ L.length + Nat.ofDigits 10 L := by
  induction L generalizing acc with
  | nil => simp
  | cons d L ih =>
    have hd : d < 10 := hL d (by simp)
    have hrest : ∀ x ∈ L, x < 10 := fun x hx => hL x (by simp [hx])
    simp only [List.reverse_cons, List.map_append, List.foldl_append, List.map_cons,
      List.map_nil, List.foldl_cons, List.foldl_nil, List.length_cons]
    rw [ih acc hrest, digitVal_digitCh hd, Nat.ofDigits_cons]
    ring

theorem parseNat_natToChars (n : Nat) : parseNat (natToChars n) = n := by
  by_cases h : n = 0
  · subst h; decide
  · unfold parseNat
    rw [natToChars_eq, if_neg h]
    have hd : ∀ d ∈ Nat.digits 10 n, d < 10 := fun d hd =>
      Nat.digits_lt_base (by norm_num) hd
    have := foldl_digitCh_reverse (Nat.digits 10 n) 0 hd
    simpa [Nat.ofDigits_digits] using this

/-! Python `\d` in a `str` pattern matches every Unicode decimal digit
(category Nd).  In the Unicode table used by CPython these characters come in
aligned runs of ten, one per decimal digit set, each starting at that set's
zero digit; `ndZeroBases` lists the code points of those zero digits (the 660
Nd characters exactly), `isUniDigit` is membership in one of the runs, and
`uniDigitVal` the character's digit value, which is also what `int()` uses for
each character of a (possibly mixed-script) digit string. -/

def ndZeroBases : List Nat := [48, 1632, 1776, 1984, 2406, 2534, 2662, 2790,
  2918, 3046, 3174, 3302, 3430, 3558, 3664, 3792, 3872, 4160, 4240, 6112,
  6160, 6470, 6608, 6784, 6800, 6992, 7088, 7232, 7248, 42528, 43216, 43264,
  43472, 43504, 43600, 44016, 65296, 66720, 68912, 69734, 69872, 69942,
  70096, 70384, 70736, 70864, 71248, 71360, 71472, 71904, 72016, 72784,
  73040, 73120, 92768, 92864, 93008, 120782, 120792, 120802, 120812, 120822,
  123200, 123632, 125264, 130032]

def isUniDigit (c : Char) : Bool :=
  ndZeroBases.any fun z => z ≤ c.toNat && c.toNat < z + 10

def uniDigitVal (c : Char) : Nat :=
  match ndZeroBases.find? (fun z => z ≤ c.toNat && c.toNat < z + 10) with
  | some z => c.toNat - z
  | none => 0

/-- Python `int(s)` on a nonempty string of Unicode decimal digits. -/
def parseNatU (l : PyStr) : Nat := l.foldl (fun a c => a * 10 + uniDigitVal c) 0

theorem isUniDigit_digitCh {d : Nat} (h : d < 10) : isUniDigit (digitCh d) = true := by
  interval_cases d <;> decide

theorem uniDigitVal_digitCh {d : Nat} (h : d < 10) : uniDigitVal (digitCh d) = d := by
  interval_cases d <;> decide

theorem foldl_digitCh_reverse_uni (L : List Nat) (acc : Nat) (hL : ∀ d ∈ L, d < 10) :
    ((L.reverse.map digitCh).foldl (fun a c => a * 10 + uniDigitVal c) acc)
      = acc * 10 ^ L.length + Nat.ofDigits 10 L := by
  induction L generalizing acc with
  | nil => simp
  | cons d L ih =>
    have hd : d < 10 := hL d (by simp)
    have hrest : ∀ x ∈ L, x < 10 := fun x hx => hL x (by simp [hx])
    simp only [List.reverse_cons, List.map_append, List.foldl_append, List.map_cons,
      List.map_nil, List.foldl_cons, List.foldl_nil, List.length_cons]
    rw [ih acc hrest, uniDigitVal_digitCh hd, Nat.ofDigits_cons]
    ring

theorem parseNatU_natToChars (n : Nat) : parseNatU (natToChars n) = n := by
  by_cases h : n = 0
  · subst h; decide
  · unfold parseNatU
    rw [natToChars_eq, if_neg h]
    have hd : ∀ d ∈ Nat.digits 10 n, d < 10 := fun d hd =>
      Nat.digits_lt_base (by norm_num) hd
    have := foldl_digitCh_reverse_uni (Nat.digits 10 n) 0 hd
    simpa [Nat.ofDigits_digits] using this

/-- Remove one trailing newline: the one position Python `$` (without
`re.MULTILINE`) may leave unconsumed at the end of the string. -/
def stripNl (s : PyStr) : PyStr :=
  if s.getLast? = some (Char.ofNat 10) then s.dropLast else s

theorem stripNl_concat_nl (t : PyStr) : stripNl (t ++ [Char.ofNat 10]) = t := by
  unfold stripNl
  rw [List.getLast?_concat, if_pos rfl, List.dropLast_concat]

theorem stripNl_eq_self {s : PyStr} (h : s.getLast? ≠ some (Char.ofNat 10)) :
    stripNl s = s := by
  unfold stripNl
  rw [if_neg h]

theorem stripNl_cases (s : PyStr) : s = stripNl s ∨ s = stripNl s ++ [Char.ofNat 10] := by
  rcases List.eq_nil_or_concat s with rfl | ⟨t, a, rfl⟩
  · left; rfl
  · simp only [List.concat_eq_append]
    by_cases ha : a = Char.ofNat 10
    · subst ha
      right
      rw [stripNl_concat_nl]
    · left
      exact (stripNl_eq_self (by rw [List.getLast?_concat]; simpa using ha)).symm

/-! ## Quote-id codec (`src/thematic_lm/utils/quote_id.py`)

The canonical pattern `QUOTE_ID_PATTERN` is

  `^(?P<interaction_id>[a-f0-9-]+)(?::msg_(?P<msg_index>\d+))?:ch_(?P<chunk_index>\d+):(?P<start_pos>\d+)-(?P<end_pos>\d+)$`

None of the character classes of the pattern can match `:`, and each literal
component is disjoint from the classes adjacent to it, so matching is
deterministic: each `+`-class greedily takes its maximal run and no
backtracking can succeed where this fails.  `quoteIdMatch` below is that
deterministic reading of `re.match` with its four capture groups, with the
trailing `$` read as hard end-of-input; `\d` is `isUniDigit` (Unicode Nd).
Python `$` without `re.MULTILINE` also matches just before one newline at the
very end of the string, and since no class of the pattern matches a newline,
`re.match` accepts exactly the strings `quoteIdMatch` accepts after removing
one trailing newline — `decode_quote_id` therefore matches on `stripNl`. -/

def isIdChar (c : Char) : Bool := ('a' ≤ c && c ≤ 'f') || isAsciiDigit c || c = '-'

def DigitStrB (l : PyStr) : Bool := !l.isEmpty && l.all fun c => isUniDigit c

def IdStrB (l : PyStr) : Bool := !l.isEmpty && l.all fun c => isIdChar c

structure QidGroups where
  gid : PyStr
  gmsg : Option PyStr
  gch : PyStr
  gst : PyStr
  gend : PyStr
deriving DecidableEq

/-- Tail of the pattern after the start-digit run: `-(?P<end_pos>\d+)$`. -/
def matchSpanDash (st : PyStr) : PyStr → Option (PyStr × PyStr)
  | '-' :: r2 =>
    if (r2.takeWhile isUniDigit).isEmpty then none
    else if (r2.dropWhile isUniDigit).isEmpty then some (st, r2.takeWhile isUniDigit)
    else none
  | _ => none

/-- Tail of the pattern: `(?P<start_pos>\d+)-(?P<end_pos>\d+)$`. -/
def matchSpanTail (s : PyStr) : Option (PyStr × PyStr) :=
  if (s.takeWhile isUniDigit).isEmpty then none
  else matchSpanDash (s.takeWhile isUniDigit) (s.dropWhile isUniDigit)

def matchChColon (ck : PyStr) : PyStr → Option (PyStr × PyStr × PyStr)
  | ':' :: r3 => (matchSpanTail r3).map fun p => (ck, p.1, p.2)
  | _ => none

/-- Middle of the pattern: `ch_(?P<chunk_index>\d+):` followed by the span tail. -/
def matchChTail : PyStr → Option (PyStr × PyStr × PyStr)
  | 'c' :: 'h' :: '_' :: r =>
    if (r.takeWhile isUniDigit).isEmpty then none
    else matchChColon (r.takeWhile isUniDigit) (r.dropWhile isUniDigit)
  | _ => none

def matchMsgColon (idp m : PyStr) : PyStr → Option QidGroups
  | ':' :: r5 => (matchChTail r5).map fun t => ⟨idp, some m, t.1, t.2.1, t.2.2⟩
  | _ => none

/-- After `<interaction_id>:` the pattern tries the optional `msg_(?P<msg_index>\d+):`
segment and otherwise falls back to the `ch_` segment (the two are disjoint on
their first character, so the regex alternation is deterministic). -/
def matchAfterColon (idp : PyStr) : PyStr → Option QidGroups
  | 'm' :: 's' :: 'g' :: '_' :: r3 =>
    if (r3.takeWhile isUniDigit).isEmpty then none
    else matchMsgColon idp (r3.takeWhile isUniDigit) (r3.dropWhile isUniDigit)
  | r2 => (matchChTail r2).map fun t => ⟨idp, none, t.1, t.2.1, t.2.2⟩

def matchIdColon (idp : PyStr) : PyStr → Option QidGroups
  | ':' :: r2 => matchAfterColon idp r2
  | _ => none

/-- `QUOTE_ID_PATTERN.match` with its capture groups. -/
def quoteIdMatch (s : PyStr) : Option QidGroups :=
  if (s.takeWhile isIdChar).isEmpty then none
  else matchIdColon (s.takeWhile isIdChar) (s.dropWhile isIdChar)

structure QuoteIdFields where
  interactionId : PyStr
  msgIndex : Option Nat
  chunkIndex : Nat
  startPos : Nat
  endPos : Nat
deriving DecidableEq

/-- `encode_quote_id`: the two f-string branches of the Python source. -/
def encode_quote_id (interactionId : PyStr) (chunkIndex startPos endPos : Nat)
    (msgIndex : Option Nat) : PyStr :=
  match msgIndex with
  | some m =>
    interactionId ++ chars ":msg_" ++ natToChars m ++ chars ":ch_" ++ natToChars chunkIndex
      ++ [':'] ++ natToChars startPos ++ ['-'] ++ natToChars endPos
  | none =>
    interactionId ++ chars ":ch_" ++ natToChars chunkIndex
      ++ [':'] ++ natToChars startPos ++ ['-'] ++ natToChars endPos

/-- `decode_quote_id`: match against the canonical pattern (the `$`-tolerated
single trailing newline handled by `stripNl`), raise `ValueError` on failure,
otherwise convert the numeric groups with `int()` and report a missing
`msg_index` group as `None`.  The error message carries the original string. -/
def decode_quote_id (s : PyStr) : Except PyStr QuoteIdFields :=
  match quoteIdMatch (stripNl s) with
  | none => .error (chars "Invalid quote_id format: " ++ s)
  | some g =>
    .ok ⟨g.gid, g.gmsg.map parseNatU, parseNatU g.gch, parseNatU g.gst, parseNatU g.gend⟩

/-! Decomposition view of the grammar, used to state C9. -/

def chTailStr (ck st en : PyStr) : PyStr :=
  'c' :: 'h' :: '_' :: (ck ++ ':' :: (st ++ '-' :: en))

def assembleQuoteId (id : PyStr) (msg : Option PyStr) (ck st en : PyStr) : PyStr :=
  id ++ ':' :: (match msg with
    | some m => 'm' :: 's' :: 'g' :: '_' :: (m ++ ':' :: chTailStr ck st en)
    | none => chTailStr ck st en)

/-- The exact grammar `<interaction_id>[:msg_<msg_index>]:ch_<chunk_index>:<start>-<end>`
with nonempty character-class components (digit strings may carry leading zeros). -/
def QuoteIdGrammar (s : PyStr) : Prop :=
  ∃ id msg ck st en, IdStrB id = true ∧
    (∀ m, msg = some m → DigitStrB m = true) ∧
    DigitStrB ck = true ∧ DigitStrB st = true ∧ DigitStrB en = true ∧
    s = assembleQuoteId id msg ck st en

theorem digitStrB_natToChars (n : Nat) : DigitStrB (natToChars n) = true := by
  by_cases h : n = 0
  · subst h; decide
  · rw [natToChars_eq, if_neg h]
    have hne : Nat.digits 10 n ≠ [] := Nat.digits_ne_nil_iff_ne_zero.mpr h
    simp only [DigitStrB, Bool.and_eq_true, Bool.not_eq_true', List.isEmpty_eq_false,
      List.all_eq_true]
    refine ⟨by simpa using hne, ?_⟩
    intro c hc
    simp only [List.mem_map, List.mem_reverse] at hc
    obtain ⟨d, hd, rfl⟩ := hc
    exact isUniDigit_digitCh (Nat.digits_lt_base (by norm_num) hd)

theorem digitStrB_parts {l : PyStr} (h : DigitStrB l = true) :
    l ≠ [] ∧ ∀ c ∈ l, isUniDigit c = true := by
  simpa [DigitStrB, Bool.and_eq_true, Bool.not_eq_true', List.isEmpty_eq_false,
    List.all_eq_true] using h

theorem idStrB_parts {l : PyStr} (h : IdStrB l = true) :
    l ≠ [] ∧ ∀ c ∈ l, isIdChar c = true := by
  simpa [IdStrB, Bool.and_eq_true, Bool.not_eq_true', List.isEmpty_eq_false,
    List.all_eq_true] using h

theorem takeWhile_stop (p : Char → Bool) (a : PyStr) (c : Char) (b : PyStr)
    (ha : ∀ x ∈ a, p x = true) (hc : p c = false) :
    (a ++ c :: b).takeWhile p = a ∧ (a ++ c :: b).dropWhile p = c :: b := by
  constructor
  · rw [List.takeWhile_append_of_pos ha, List.takeWhile_cons_of_neg (by simp [hc]),
      List.append_nil]
  · rw [List.dropWhile_append_of_pos ha, List.dropWhile_cons_of_neg (by simp [hc])]

theorem takeWhile_all (p : Char → Bool) (a : PyStr) (ha : ∀ x ∈ a, p x = true) :
    a.takeWhile p = a ∧ a.dropWhile p = [] :=
  ⟨List.takeWhile_eq_self_iff.mpr ha, List.dropWhile_eq_nil_iff.mpr ha⟩

theorem matchSpanTail_assemble {st en : PyStr}
    (h1 : DigitStrB st = true) (h2 : DigitStrB en = true) :
    matchSpanTail (st ++ '-' :: en) = some (st, en) := by
  obtain ⟨hne1, hall1⟩ := digitStrB_parts h1
  obtain ⟨hne2, hall2⟩ := digitStrB_parts h2
  obtain ⟨ht, hd⟩ := takeWhile_stop isUniDigit st '-' en hall1 (by decide)
  obtain ⟨ht2, hd2⟩ := takeWhile_all isUniDigit en hall2
  unfold matchSpanTail
  rw [ht, hd, List.isEmpty_eq_false.mpr hne1, if_neg (by simp)]
  show (if (en.takeWhile isUniDigit).isEmpty then none
    else if (en.dropWhile isUniDigit).isEmpty then some (st, en.takeWhile isUniDigit)
    else none) = some (st, en)
  rw [ht2, hd2, List.isEmpty_eq_false.mpr hne2]
  simp

theorem matchChTail_assemble {ck st en : PyStr}
    (hck : DigitStrB ck = true) (hst : DigitStrB st = true) (hen : DigitStrB en = true) :
    matchChTail (chTailStr ck st en) = some (ck, st, en) := by
  obtain ⟨hne, hall⟩ := digitStrB_parts hck
  obtain ⟨ht, hd⟩ := takeWhile_stop isUniDigit ck ':' (st ++ '-' :: en) hall (by decide)
  show (if (((ck ++ ':' :: (st ++ '-' :: en))).takeWhile isUniDigit).isEmpty then none
    else matchChColon ((ck ++ ':' :: (st ++ '-' :: en)).takeWhile isUniDigit)
      ((ck ++ ':' :: (st ++ '-' :: en)).dropWhile isUniDigit)) = some (ck, st, en)
  rw [ht, hd, List.isEmpty_eq_false.mpr hne, if_neg (by simp)]
  show (matchSpanTail (st ++ '-' :: en)).map (fun p => (ck, p.1, p.2)) = some (ck, st, en)
  rw [matchSpanTail_assemble hst hen]
  rfl

theorem quoteIdMatch_assemble {id : PyStr} {msg : Option PyStr} {ck st en : PyStr}
    (hid : IdStrB id = true)
    (hmsg : ∀ m, msg = some m → DigitStrB m = true)
    (hck : DigitStrB ck = true) (hst : DigitStrB st = true) (hen : DigitStrB en = true) :
    quoteIdMatch (assembleQuoteId id msg ck st en) = some ⟨id, msg, ck, st, en⟩ := by
  obtain ⟨hidne, hidall⟩ := idStrB_parts hid
  cases msg with
  | none =>
    obtain ⟨ht, hd⟩ := takeWhile_stop isIdChar id ':' (chTailStr ck st en) hidall (by decide)
    unfold quoteIdMatch
    rw [show assembleQuoteId id none ck st en = id ++ ':' :: chTailStr ck st en from rfl,
      ht, hd, List.isEmpty_eq_false.mpr hidne, if_neg (by simp)]
    show matchAfterColon id (chTailStr ck st en) = some ⟨id, none, ck, st, en⟩
    show (matchChTail (chTailStr ck st en)).map
        (fun t => QidGroups.mk id none t.1 t.2.1 t.2.2)
      = some (QidGroups.mk id none ck st en)
    rw [matchChTail_assemble hck hst hen]
    rfl
  | some m =>
    obtain ⟨hmne, hmall⟩ := digitStrB_parts (hmsg m rfl)
    obtain ⟨ht, hd⟩ := takeWhile_stop isIdChar id ':'
      ('m' :: 's' :: 'g' :: '_' :: (m ++ ':' :: chTailStr ck st en)) hidall (by decide)
    obtain ⟨ht2, hd2⟩ := takeWhile_stop isUniDigit m ':' (chTailStr ck st en) hmall (by decide)
    unfold quoteIdMatch
    rw [show assembleQuoteId id (some m) ck st en
        = id ++ ':' :: 'm' :: 's' :: 'g' :: '_' :: (m ++ ':' :: chTailStr ck st en) from rfl,
      ht, hd, List.isEmpty_eq_false.mpr hidne, if_neg (by simp)]
    show matchAfterColon id ('m' :: 's' :: 'g' :: '_' :: (m ++ ':' :: chTailStr ck st en))
      = some ⟨id, some m, ck, st, en⟩
    show (if ((m ++ ':' :: chTailStr ck st en).takeWhile isUniDigit).isEmpty then none
      else matchMsgColon id ((m ++ ':' :: chTailStr ck st en).takeWhile isUniDigit)
        ((m ++ ':' :: chTailStr ck st en).dropWhile isUniDigit))
      = some ⟨id, some m, ck, st, en⟩
    rw [ht2, hd2, List.isEmpty_eq_false.mpr hmne, if_neg (by simp)]
    show (matchChTail (chTailStr ck st en)).map
        (fun t => QidGroups.mk id (some m) t.1 t.2.1 t.2.2)
      = some (QidGroups.mk id (some m) ck st en)
    rw [matchChTail_assemble hck hst hen]
    rfl

theorem digitStrB_intro {l : PyStr} (hne : l ≠ []) (hall : ∀ c ∈ l, isUniDigit c = true) :
    DigitStrB l = true := by
  unfold DigitStrB
  rw [List.isEmpty_eq_false.mpr hne, List.all_eq_true.mpr hall]
  rfl

theorem idStrB_intro {l : PyStr} (hne : l ≠ []) (hall : ∀ c ∈ l, isIdChar c = true) :
    IdStrB l = true := by
  unfold IdStrB
  rw [List.isEmpty_eq_false.mpr hne, List.all_eq_true.mpr hall]
  rfl

theorem mem_takeWhile_pred {p : Char → Bool} {l : PyStr} {c : Char}
    (hc : c ∈ l.takeWhile p) : p c = true :=
  List.all_eq_true.mp List.all_takeWhile c hc

theorem digitStrB_takeWhile {l : PyStr} (h : ¬(l.takeWhile isUniDigit).isEmpty = true) :
    DigitStrB (l.takeWhile isUniDigit) = true :=
  digitStrB_intro (by simpa using h) (fun _ hc => mem_takeWhile_pred hc)

theorem matchSpanTail_some {s st en : PyStr}
    (h : matchSpanTail s = some (st, en)) :
    DigitStrB st = true ∧ DigitStrB en = true ∧ s = st ++ '-' :: en := by
  unfold matchSpanTail at h
  split at h
  · exact absurd h (by simp)
  · rename_i hne1
    unfold matchSpanDash at h
    split at h
    · rename_i r2 heq
      split at h
      · exact absurd h (by simp)
      · rename_i hne2
        split at h
        · rename_i hnil
          obtain ⟨h1, h2⟩ : s.takeWhile isUniDigit = st ∧ r2.takeWhile isUniDigit = en := by
            simpa using h
          have hr2 : r2.takeWhile isUniDigit = r2 := by
            have := List.takeWhile_append_dropWhile isUniDigit r2
            rwa [List.isEmpty_iff.mp hnil, List.append_nil] at this
          refine ⟨h1 ▸ digitStrB_takeWhile hne1, h2 ▸ digitStrB_takeWhile hne2, ?_⟩
          have hs2 : s.takeWhile isUniDigit ++ s.dropWhile isUniDigit = s :=
            List.takeWhile_append_dropWhile isUniDigit s
          rw [heq, h1] at hs2
          rw [← hs2, ← h2, hr2]
        · exact absurd h (by simp)
    · exact absurd h (by simp)

theorem matchChTail_some {s ck st en : PyStr}
    (h : matchChTail s = some (ck, st, en)) :
    DigitStrB ck = true ∧ DigitStrB st = true ∧ DigitStrB en = true
      ∧ s = chTailStr ck st en := by
  unfold matchChTail at h
  split at h
  · rename_i r
    split at h
    · exact absurd h (by simp)
    · rename_i hne
      unfold matchChColon at h
      split at h
      · rename_i r3 heq
        cases hm : matchSpanTail r3 with
        | none => rw [hm] at h; exact absurd h (by simp)
        | some p =>
          obtain ⟨st0, en0⟩ := p
          rw [hm] at h
          obtain ⟨h1, h2, h3⟩ : r.takeWhile isUniDigit = ck ∧ st0 = st ∧ en0 = en := by
            simpa using h
          subst h2
          subst h3
          obtain ⟨hp1, hp2, hp3⟩ := matchSpanTail_some hm
          have hr : r.takeWhile isUniDigit ++ r.dropWhile isUniDigit = r :=
            List.takeWhile_append_dropWhile isUniDigit r
          rw [heq, h1, hp3] at hr
          refine ⟨h1 ▸ digitStrB_takeWhile hne, hp1, hp2, ?_⟩
          rw [chTailStr, ← hr]
      · exact absurd h (by simp)
  · exact absurd h (by simp)

theorem matchAfterColon_some {idp r2 : PyStr} {g : QidGroups}
    (h : matchAfterColon idp r2 = some g) :
    g.gid = idp ∧ (∀ m, g.gmsg = some m → DigitStrB m = true) ∧
    DigitStrB g.gch = true ∧ DigitStrB g.gst = true ∧ DigitStrB g.gend = true ∧
    (g.gmsg = none → r2 = chTailStr g.gch g.gst g.gend) ∧
    (∀ m, g.gmsg = some m →
      r2 = 'm' :: 's' :: 'g' :: '_' :: (m ++ ':' :: chTailStr g.gch g.gst g.gend)) := by
  unfold matchAfterColon at h
  split at h
  · rename_i r3
    split at h
    · exact absurd h (by simp)
    · rename_i hne
      unfold matchMsgColon at h
      split at h
      · rename_i r5 heq
        cases hm : matchChTail r5 with
        | none => rw [hm] at h; exact absurd h (by simp)
        | some t =>
          obtain ⟨ck0, st0, en0⟩ := t
          rw [hm] at h
          obtain ⟨ht1, ht2, ht3, ht4⟩ := matchChTail_some hm
          have hg : QidGroups.mk idp (some (r3.takeWhile isUniDigit)) ck0 st0 en0 = g := by
            simpa using h
          subst hg
          have hr3 : r3.takeWhile isUniDigit ++ ':' :: chTailStr ck0 st0 en0 = r3 := by
            have := List.takeWhile_append_dropWhile isUniDigit r3
            rwa [heq, ht4] at this
          refine ⟨rfl, ?_, ht1, ht2, ht3, ?_, ?_⟩
          · intro m hm2
            obtain rfl : r3.takeWhile isUniDigit = m := by simpa using hm2
            exact digitStrB_takeWhile hne
          · intro hx
            exact absurd hx (by simp)
          · intro m hm2
            obtain rfl : r3.takeWhile isUniDigit = m := by simpa using hm2
            show 'm' :: 's' :: 'g' :: '_' :: r3
              = 'm' :: 's' :: 'g' :: '_'
                :: (r3.takeWhile isUniDigit ++ ':' :: chTailStr ck0 st0 en0)
            rw [hr3]
      · exact absurd h (by simp)
  · cases hm : matchChTail r2 with
    | none => rw [hm] at h; exact absurd h (by simp)
    | some t =>
      obtain ⟨ck0, st0, en0⟩ := t
      rw [hm] at h
      obtain ⟨ht1, ht2, ht3, ht4⟩ := matchChTail_some hm
      have hg : QidGroups.mk idp none ck0 st0 en0 = g := by
        simpa using h
      subst hg
      refine ⟨rfl, by simp, ht1, ht2, ht3, fun _ => ht4, ?_⟩
      intro m hx
      exact absurd hx (by simp)

theorem quoteIdMatch_some {s : PyStr} {g : QidGroups} (h : quoteIdMatch s = some g) :
    IdStrB g.gid = true ∧ (∀ m, g.gmsg = some m → DigitStrB m = true) ∧
    DigitStrB g.gch = true ∧ DigitStrB g.gst = true ∧ DigitStrB g.gend = true ∧
    s = assembleQuoteId g.gid g.gmsg g.gch g.gst g.gend := by
  unfold quoteIdMatch at h
  split at h
  · exact absurd h (by simp)
  · rename_i hne
    unfold matchIdColon at h
    split at h
    · rename_i r2 heq
      obtain ⟨h1, h2, h3, h4, h5, h6, h7⟩ := matchAfterColon_some h
      have hid : IdStrB (s.takeWhile isIdChar) = true :=
        idStrB_intro (by simpa using hne) (fun _ hc => mem_takeWhile_pred hc)
      rw [← h1] at hid
      refine ⟨hid, h2, h3, h4, h5, ?_⟩
      have hs : s.takeWhile isIdChar ++ s.dropWhile isIdChar = s :=
        List.takeWhile_append_dropWhile isIdChar s
      rw [heq] at hs
      cases hmsg : g.gmsg with
      | none =>
        show s = g.gid ++ ':' :: chTailStr g.gch g.gst g.gend
        rw [← hs, h1, h6 hmsg]
      | some m =>
        show s = g.gid ++ ':' :: 'm' :: 's' :: 'g' :: '_'
          :: (m ++ ':' :: chTailStr g.gch g.gst g.gend)
        rw [← hs, h1, h7 m hmsg]
    · exact absurd h (by simp)

theorem decode_eq_of_match_none {s : PyStr} (hq : quoteIdMatch (stripNl s) = none) :
    decode_quote_id s = .error (chars "Invalid quote_id format: " ++ s) := by
  unfold decode_quote_id
  rw [hq]

theorem decode_eq_of_match_some {s : PyStr} {g : QidGroups}
    (hq : quoteIdMatch (stripNl s) = some g) :
    decode_quote_id s
      = .ok ⟨g.gid, g.gmsg.map parseNatU, parseNatU g.gch, parseNatU g.gst,
          parseNatU g.gend⟩ := by
  unfold decode_quote_id
  rw [hq]

theorem encode_eq_assemble (id : PyStr) (ck st en : Nat) (msg : Option Nat) :
    encode_quote_id id ck st en msg
      = assembleQuoteId id (msg.map natToChars) (natToChars ck) (natToChars st)
          (natToChars en) := by
  cases msg with
  | none =>
    show id ++ chars ":ch_" ++ natToChars ck ++ [':'] ++ natToChars st ++ ['-'] ++ natToChars en
      = id ++ ':' :: chTailStr (natToChars ck) (natToChars st) (natToChars en)
    rw [show chars ":ch_" = [':', 'c', 'h', '_'] from rfl, chTailStr]
    simp
  | some m =>
    show id ++ chars ":msg_" ++ natToChars m ++ chars ":ch_" ++ natToChars ck ++ [':']
        ++ natToChars st ++ ['-'] ++ natToChars en
      = id ++ ':' :: ('m' :: 's' :: 'g' :: '_'
          :: (natToChars m ++ ':' :: chTailStr (natToChars ck) (natToChars st) (natToChars en)))
    rw [show chars ":msg_" = [':', 'm', 's', 'g', '_'] from rfl,
      show chars ":ch_" = [':', 'c', 'h', '_'] from rfl, chTailStr]
    simp

theorem assemble_concat_en (id : PyStr) (msg : Option PyStr) (ck st en : PyStr) :
    ∃ p, assembleQuoteId id msg ck st en = p ++ en := by
  cases msg with
  | none =>
    exact ⟨id ++ [':'] ++ ['c', 'h', '_'] ++ ck ++ [':'] ++ st ++ ['-'],
      by simp [assembleQuoteId, chTailStr]⟩
  | some m =>
    exact ⟨id ++ [':'] ++ ['m', 's', 'g', '_'] ++ m ++ [':'] ++ ['c', 'h', '_']
        ++ ck ++ [':'] ++ st ++ ['-'],
      by simp [assembleQuoteId, chTailStr]⟩

/-- A grammar string ends in a digit of its end-offset group, never in a
newline, so `stripNl` leaves it unchanged. -/
theorem stripNl_assemble {id : PyStr} {msg : Option PyStr} {ck st en : PyStr}
    (hen : DigitStrB en = true) :
    stripNl (assembleQuoteId id msg ck st en) = assembleQuoteId id msg ck st en := by
  obtain ⟨hne, hall⟩ := digitStrB_parts hen
  obtain ⟨p, hp⟩ := assemble_concat_en id msg ck st en
  rcases List.eq_nil_or_concat en with rfl | ⟨t, a, rfl⟩
  · exact absurd rfl hne
  · apply stripNl_eq_self
    rw [hp, List.concat_eq_append, ← List.append_assoc, List.getLast?_concat]
    have ha : isUniDigit a = true := hall a (by simp)
    have hne2 : a ≠ Char.ofNat 10 := by
      intro hEq
      rw [hEq] at ha
      exact absurd ha (by decide)
    simp [hne2]

/-- Claim C3: round-trip law for the quote-id codec.  For every valid field
tuple — `interaction_id` a non-empty string over lowercase hex digits and
hyphens, non-negative integer indices and offsets, optional `msg_index` —
decoding the encoding recovers exactly the fields, with an absent `msg_index`
recovered as an explicit `none`; and concretely
`encode_quote_id "abc-1" 2 10 20 = "abc-1:ch_2:10-20"`, whose decoding yields
those fields back. -/
theorem claim_C3_quote_id_roundtrip :
    (∀ (id : PyStr) (ck st en : Nat) (msg : Option Nat), IdStrB id = true →
      decode_quote_id (encode_quote_id id ck st en msg)
        = .ok ⟨id, msg, ck, st, en⟩)
    ∧ encode_quote_id (chars "abc-1") 2 10 20 none = chars "abc-1:ch_2:10-20"
    ∧ decode_quote_id (chars "abc-1:ch_2:10-20")
        = .ok ⟨chars "abc-1", none, 2, 10, 20⟩ := by
  refine ⟨?_, by decide, by decide⟩
  intro id ck st en msg hid
  rw [encode_eq_assemble]
  have hmsg : ∀ m, msg.map natToChars = some m → DigitStrB m = true := by
    intro m hm
    cases msg with
    | none => cases hm
    | some k =>
      obtain rfl : natToChars k = m := by simpa using hm
      exact digitStrB_natToChars k
  have hq : quoteIdMatch (stripNl (assembleQuoteId id (msg.map natToChars)
      (natToChars ck) (natToChars st) (natToChars en)))
      = some ⟨id, msg.map natToChars, natToChars ck, natToChars st, natToChars en⟩ := by
    rw [stripNl_assemble (digitStrB_natToChars en)]
    exact quoteIdMatch_assemble hid hmsg (digitStrB_natToChars ck)
      (digitStrB_natToChars st) (digitStrB_natToChars en)
  rw [decode_eq_of_match_some hq]
  cases msg <;> simp [parseNatU_natToChars]

/-- Witness for C3 at a concrete field tuple with a message index present. -/
theorem claim_C3_witness :
    decode_quote_id (encode_quote_id (chars "ab-3f") 0 7 12 (some 4))
      = .ok ⟨chars "ab-3f", some 4, 0, 7, 12⟩ :=
  claim_C3_quote_id_roundtrip.1 (chars "ab-3f") 0 7 12 (some 4) (by decide)

/-- The strings `QUOTE_ID_PATTERN.match` accepts: a grammar string, optionally
followed by the one trailing newline Python `$` tolerates. -/
def AcceptedQuoteId (s : PyStr) : Prop :=
  ∃ t, (s = t ∨ s = t ++ [Char.ofNat 10]) ∧ QuoteIdGrammar t

theorem accepted_iff_strip {s : PyStr} :
    AcceptedQuoteId s ↔ QuoteIdGrammar (stripNl s) := by
  constructor
  · rintro ⟨t, hst, hg⟩
    obtain ⟨id, msg, ck, st, en, a1, a2, a3, a4, a5, rfl⟩ := hg
    rcases hst with rfl | rfl
    · rw [stripNl_assemble a5]
      exact ⟨id, msg, ck, st, en, a1, a2, a3, a4, a5, rfl⟩
    · rw [stripNl_concat_nl]
      exact ⟨id, msg, ck, st, en, a1, a2, a3, a4, a5, rfl⟩
  · intro hg
    exact ⟨stripNl s, stripNl_cases s, hg⟩

theorem not_grammar_of_match_none {s : PyStr} (hq : quoteIdMatch s = none) :
    ¬ QuoteIdGrammar s := by
  rintro ⟨id, msg, ck, st, en, a1, a2, a3, a4, a5, rfl⟩
  have := quoteIdMatch_assemble a1 a2 a3 a4 a5
  rw [hq] at this
  exact absurd this (by simp)

theorem not_accepted_of_match_none {s : PyStr} (hq : quoteIdMatch (stripNl s) = none) :
    ¬ AcceptedQuoteId s := fun h =>
  not_grammar_of_match_none hq (accepted_iff_strip.mp h)

/-- C9 (amended): `decode_quote_id` errors, with no partial result, exactly on
the strings `QUOTE_ID_PATTERN.match` rejects: those outside the grammar
`<interaction_id>[:msg_<msg_index>]:ch_<chunk_index>:<start>-<end>` (digit
segments being nonempty runs of Unicode decimal digits) even after allowing
the single trailing newline that the pattern's `$` tolerates under `re.match`
— in particular strings with a non-numeric index or offset segment, a missing
segment, or a missing interaction id; and on every accepted string, with or
without the trailing newline, it recovers each field with correct typing
(`int()` of the digit groups, absent `msg_index` as an explicit `none`). -/
theorem claim_C9_decode_rejects :
    (∀ s : PyStr, ¬ AcceptedQuoteId s →
        decode_quote_id s = .error (chars "Invalid quote_id format: " ++ s))
    ∧ (∀ (s : PyStr) (f : QuoteIdFields), decode_quote_id s = .ok f → AcceptedQuoteId s)
    ∧ (∀ id msg ck st en, IdStrB id = true → (∀ m, msg = some m → DigitStrB m = true) →
        DigitStrB ck = true → DigitStrB st = true → DigitStrB en = true →
        decode_quote_id (assembleQuoteId id msg ck st en)
            = .ok ⟨id, msg.map parseNatU, parseNatU ck, parseNatU st, parseNatU en⟩
          ∧ decode_quote_id (assembleQuoteId id msg ck st en ++ [Char.ofNat 10])
            = .ok ⟨id, msg.map parseNatU, parseNatU ck, parseNatU st, parseNatU en⟩)
    ∧ decode_quote_id (chars "abc-1:ch_x:10-20")
        = .error (chars "Invalid quote_id format: abc-1:ch_x:10-20")
    ∧ decode_quote_id (chars "abc-1:10-20")
        = .error (chars "Invalid quote_id format: abc-1:10-20")
    ∧ decode_quote_id (chars ":ch_2:10-20")
        = .error (chars "Invalid quote_id format: :ch_2:10-20") := by
  refine ⟨?_, ?_, ?_, by decide, by decide, by decide⟩
  · intro s hna
    cases hq : quoteIdMatch (stripNl s) with
    | some g =>
      exfalso
      obtain ⟨a1, a2, a3, a4, a5, a6⟩ := quoteIdMatch_some hq
      exact hna (accepted_iff_strip.mpr
        ⟨g.gid, g.gmsg, g.gch, g.gst, g.gend, a1, a2, a3, a4, a5, a6⟩)
    | none => exact decode_eq_of_match_none hq
  · intro s f hok
    cases hq : quoteIdMatch (stripNl s) with
    | none =>
      rw [decode_eq_of_match_none hq] at hok
      exact absurd hok (by simp)
    | some g =>
      obtain ⟨a1, a2, a3, a4, a5, a6⟩ := quoteIdMatch_some hq
      exact accepted_iff_strip.mpr
        ⟨g.gid, g.gmsg, g.gch, g.gst, g.gend, a1, a2, a3, a4, a5, a6⟩
  · intro id msg ck st en h1 h2 h3 h4 h5
    have hq0 : quoteIdMatch (assembleQuoteId id msg ck st en)
        = some ⟨id, msg, ck, st, en⟩ :=
      quoteIdMatch_assemble h1 h2 h3 h4 h5
    constructor
    · rw [decode_eq_of_match_some (show quoteIdMatch
        (stripNl (assembleQuoteId id msg ck st en)) = some ⟨id, msg, ck, st, en⟩ by
          rw [stripNl_assemble h5]; exact hq0)]
    · rw [decode_eq_of_match_some (show quoteIdMatch
        (stripNl (assembleQuoteId id msg ck st en ++ [Char.ofNat 10]))
          = some ⟨id, msg, ck, st, en⟩ by
          rw [stripNl_concat_nl]; exact hq0)]

/-- C9 (counterexample to the original claim): the pattern's `$` under
`re.match` also matches just before a single newline at the end of the
string, so `decode_quote_id` accepts `"abc-1:ch_2:10-20\n"` and returns its
fields although that string is outside the claim's exact grammar. -/
theorem claim_C9_counterexample :
    decode_quote_id (chars "abc-1:ch_2:10-20\n")
      = .ok ⟨chars "abc-1", none, 2, 10, 20⟩
    ∧ ¬ QuoteIdGrammar (chars "abc-1:ch_2:10-20\n") :=
  ⟨by decide, not_grammar_of_match_none (by decide)⟩

/-- Witness for C9 at a concrete rejected string. -/
theorem claim_C9_witness :
    decode_quote_id (chars "abc-1:ch_x:99")
      = .error (chars "Invalid quote_id format: abc-1:ch_x:99") :=
  claim_C9_decode_rejects.1 (chars "abc-1:ch_x:99")
    (not_accepted_of_match_none (by decide))

/-! ## Quote-span normalization (`src/thematic_lm/utils/quotes.py`)

`normalize_quote_span(quote_text, chunk_text, start_pos, end_pos)` validates
claimed offsets (`0 <= start_pos < end_pos <= len(chunk_text)` and exact slice
match) and otherwise repairs via `chunk_text.index(quote_text)` (leftmost
occurrence; `ValueError` becomes `None`).  Offsets are Python ints, hence
`Option Int` here. -/

/-- Python `chunk_text.index(quote_text)`: index of the leftmost occurrence of
`q` as a contiguous substring of `c`, `none` when absent.  As in Python,
the empty string is found at index 0. -/
def findSub (c q : PyStr) : Option Nat :=
  if q.isPrefixOf c then some 0
  else
    match c with
    | [] => none
    | _ :: t => (findSub t q).map (· + 1)

/-- The `try: chunk_text.index(...) except ValueError: return None` repair path. -/
def repairSpan (chunkText quoteText : PyStr) : Option (Nat × Nat) :=
  (findSub chunkText quoteText).map fun i => (i, i + quoteText.length)

def normalize_quote_span (quoteText chunkText : PyStr) (startPos endPos : Option Int) :
    Option (Nat × Nat) :=
  match startPos, endPos with
  | some s, some e =>
    if 0 ≤ s ∧ s < e ∧ e ≤ (chunkText.length : Int) then
      if sliceL chunkText s.toNat e.toNat = quoteText then some (s.toNat, e.toNat)
      else repairSpan chunkText quoteText
    else repairSpan chunkText quoteText
  | _, _ => repairSpan chunkText quoteText

/-- Occurrence of `q` at code-point offset `i` of `c` (spec vocabulary). -/
def OccursAt (c q : PyStr) (i : Nat) : Prop :=
  i + q.length ≤ c.length ∧ sliceL c i (i + q.length) = q

instance (c q : PyStr) (i : Nat) : Decidable (OccursAt c q i) := by
  unfold OccursAt
  infer_instance

/-- Reference bounds of the first (leftmost) occurrence, stated through the
least-witness operator rather than through the search loop. -/
def leftmostSpan (c q : PyStr) : Option (Nat × Nat) :=
  if h : ∃ i, i ≤ c.length ∧ OccursAt c q i
  then some (Nat.find h, Nat.find h + q.length)
  else none

/-- Reference policy, from the specification text: (1) offsets in bounds,
ordered and exactly matching are returned unchanged; (2) otherwise the first
occurrence of the quote is returned; (3) otherwise the span is invalid. -/
def normalizeSpanPolicy (quoteText chunkText : PyStr) (startPos endPos : Option Int) :
    Option (Nat × Nat) :=
  match startPos, endPos with
  | some s, some e =>
    if 0 ≤ s ∧ e ≤ (chunkText.length : Int) ∧ s < e
        ∧ sliceL chunkText s.toNat e.toNat = quoteText
    then some (s.toNat, e.toNat)
    else leftmostSpan chunkText quoteText
  | _, _ => leftmostSpan chunkText quoteText

theorem take_of_isPrefixOf {q : PyStr} : ∀ {l : PyStr}, q.isPrefixOf l = true →
    l.take q.length = q ∧ q.length ≤ l.length := by
  induction q with
  | nil => intro l _; simp
  | cons a q ih =>
    intro l h
    cases l with
    | nil => simp [List.isPrefixOf] at h
    | cons b t =>
      simp only [List.isPrefixOf, Bool.and_eq_true, beq_iff_eq] at h
      obtain ⟨rfl, h2⟩ := h
      obtain ⟨ih1, ih2⟩ := ih h2
      simp [List.take_succ_cons, ih1, Nat.succ_le_succ ih2]

theorem isPrefixOf_of_take {q : PyStr} : ∀ {l : PyStr}, q.length ≤ l.length →
    l.take q.length = q → q.isPrefixOf l = true := by
  induction q with
  | nil => intro l _ _; simp [List.isPrefixOf]
  | cons a q ih =>
    intro l hlen ht
    cases l with
    | nil => simp at hlen
    | cons b t =>
      simp only [List.length_cons, List.take_succ_cons, List.cons.injEq] at hlen ht
      obtain ⟨rfl, ht2⟩ := ht
      simp only [List.isPrefixOf, Bool.and_eq_true, beq_self_eq_true, true_and]
      exact ih (by omega) ht2

theorem occursAt_iff_pref {c q : PyStr} {i : Nat} (hi : i ≤ c.length) :
    OccursAt c q i ↔ q.isPrefixOf (c.drop i) = true := by
  have hslice : sliceL c i (i + q.length) = (c.drop i).take q.length := by
    simp [sliceL]
  constructor
  · rintro ⟨h1, h2⟩
    rw [hslice] at h2
    exact isPrefixOf_of_take (by simp; omega) h2
  · intro h
    obtain ⟨h1, h2⟩ := take_of_isPrefixOf h
    refine ⟨?_, by rw [hslice, h1]⟩
    simp at h2
    omega

theorem findSub_none {c q : PyStr} (h : findSub c q = none) :
    ∀ i, q.isPrefixOf (c.drop i) = false := by
  induction c with
  | nil =>
    intro i
    unfold findSub at h
    split at h
    · exact absurd h (by simp)
    · rename_i hp
      rw [List.drop_nil]
      exact Bool.eq_false_iff.mpr hp
  | cons a t ih =>
    intro i
    unfold findSub at h
    split at h
    · exact absurd h (by simp)
    · rename_i hp
      dsimp only at h
      have ht : findSub t q = none := by
        cases hf : findSub t q with
        | none => rfl
        | some j => rw [hf] at h; exact absurd h (by simp)
      cases i with
      | zero =>
        rw [List.drop_zero]
        exact Bool.eq_false_iff.mpr hp
      | succ i => exact ih ht i

theorem findSub_some {c q : PyStr} : ∀ {i : Nat}, findSub c q = some i →
    q.isPrefixOf (c.drop i) = true ∧ i ≤ c.length
      ∧ ∀ j, j < i → q.isPrefixOf (c.drop j) = false := by
  induction c with
  | nil =>
    intro i h
    unfold findSub at h
    split at h
    · rename_i hp
      obtain rfl : (0 : Nat) = i := by simpa using h
      exact ⟨by rw [List.drop_zero]; exact hp, by simp, by omega⟩
    · exact absurd h (by simp)
  | cons a t ih =>
    intro i h
    unfold findSub at h
    split at h
    · rename_i hp
      obtain rfl : (0 : Nat) = i := by simpa using h
      exact ⟨by rw [List.drop_zero]; exact hp, by simp, by omega⟩
    · rename_i hp
      dsimp only at h
      cases hf : findSub t q with
      | none => rw [hf] at h; exact absurd h (by simp)
      | some j =>
        rw [hf] at h
        obtain rfl : j + 1 = i := by simpa using h
        obtain ⟨ih1, ih2, ih3⟩ := ih hf
        refine ⟨by simpa using ih1, by simp; omega, ?_⟩
        intro k hk
        cases k with
        | zero =>
          rw [List.drop_zero]
          exact Bool.eq_false_iff.mpr hp
        | succ k => exact ih3 k (by omega)

theorem repairSpan_eq_leftmost (c q : PyStr) : repairSpan c q = leftmostSpan c q := by
  cases hf : findSub c q with
  | none =>
    have hall := findSub_none hf
    unfold leftmostSpan
    rw [dif_neg]
    · simp [repairSpan, hf]
    · rintro ⟨i, hle, hocc⟩
      have := (occursAt_iff_pref hle).mp hocc
      rw [hall i] at this
      exact absurd this (by simp)
  | some i =>
    obtain ⟨h1, h2, h3⟩ := findSub_some hf
    have hocc : OccursAt c q i := (occursAt_iff_pref h2).mpr h1
    have hex : ∃ j, j ≤ c.length ∧ OccursAt c q j := ⟨i, h2, hocc⟩
    unfold leftmostSpan
    rw [dif_pos hex]
    have hfind : Nat.find hex = i := by
      rw [Nat.find_eq_iff]
      refine ⟨⟨h2, hocc⟩, ?_⟩
      rintro m hm ⟨hmle, hmocc⟩
      have := (occursAt_iff_pref hmle).mp hmocc
      rw [h3 m hm] at this
      exact absurd this (by simp)
    rw [hfind]
    simp [repairSpan, hf]

/-- Claim C5: `normalize_quote_span` coincides with the reference policy: pass
through claimed offsets exactly when they are in `[0, len]`, ordered, and slice
to the quote text; otherwise return the first (leftmost) exact occurrence;
otherwise the invalid outcome; and an empty quote text always yields the
degenerate valid span `(0, 0)`. -/
theorem claim_C5_normalize_matches_policy :
    (∀ (q c : PyStr) (sp ep : Option Int),
        normalize_quote_span q c sp ep = normalizeSpanPolicy q c sp ep)
    ∧ (∀ (c : PyStr) (sp ep : Option Int), normalize_quote_span [] c sp ep = some (0, 0)) := by
  constructor
  · intro q c sp ep
    rcases sp with _ | s <;> rcases ep with _ | e
    · exact repairSpan_eq_leftmost c q
    · exact repairSpan_eq_leftmost c q
    · exact repairSpan_eq_leftmost c q
    · show (if 0 ≤ s ∧ s < e ∧ e ≤ (c.length : Int) then
          if sliceL c s.toNat e.toNat = q then some (s.toNat, e.toNat) else repairSpan c q
        else repairSpan c q)
        = (if 0 ≤ s ∧ e ≤ (c.length : Int) ∧ s < e ∧ sliceL c s.toNat e.toNat = q
          then some (s.toNat, e.toNat) else leftmostSpan c q)
      by_cases h1 : 0 ≤ s ∧ s < e ∧ e ≤ (c.length : Int)
      · rw [if_pos h1]
        by_cases h2 : sliceL c s.toNat e.toNat = q
        · rw [if_pos h2, if_pos ⟨h1.1, h1.2.2, h1.2.1, h2⟩]
        · rw [if_neg h2, if_neg (by tauto), repairSpan_eq_leftmost]
      · rw [if_neg h1, if_neg (by tauto), repairSpan_eq_leftmost]
  · intro c sp ep
    have hrep : repairSpan c [] = some (0, 0) := by
      have : findSub c [] = some 0 := by
        unfold findSub
        rw [if_pos (by cases c <;> rfl)]
      simp [repairSpan, this]
    rcases sp with _ | s <;> rcases ep with _ | e
    · exact hrep
    · exact hrep
    · exact hrep
    · show (if 0 ≤ s ∧ s < e ∧ e ≤ (c.length : Int) then
          if sliceL c s.toNat e.toNat = [] then some (s.toNat, e.toNat) else repairSpan c []
        else repairSpan c []) = some (0, 0)
      by_cases h1 : 0 ≤ s ∧ s < e ∧ e ≤ (c.length : Int)
      · rw [if_pos h1, if_neg, hrep]
        intro hsl
        have hlen := congrArg List.length hsl
        rw [sliceL_length] at hlen
        simp at hlen
        omega
      · rw [if_neg h1, hrep]

/-! ## Retry loop (`src/thematic_lm/utils/retry.py`)

`call_with_retry(fn, max_attempts, base_delay, timeout)` runs
`asyncio.wait_for(fn(...), timeout)` up to `max_attempts` times; a
`TimeoutError` or any other exception marks the attempt failed; between failed
attempts (`attempt < max_attempts - 1`) it sleeps
`base_delay * 2**attempt + random.uniform(0, 0.1)`; after the loop it
re-raises the last failure.  The model makes each attempt's outcome an oracle
`fn : Nat → Except AttemptErr T` (index = attempt number, timeouts and
exceptions both being `AttemptErr`), the jitter an oracle `jit : Nat → ℚ`,
delays exact rationals, and records the trace of calls and sleeps.  With
`max_attempts = 0` the Python loop body never runs and `raise last_exception`
raises `None`, a `TypeError`, modeled as `RetryErr.raiseNone`. -/

inductive AttemptErr where
  | exc (msg : PyStr)
  | timeout
deriving DecidableEq

inductive RetryErr where
  | fromAttempt (e : AttemptErr)
  | raiseNone
deriving DecidableEq

structure RetryTrace (T : Type) where
  result : Except RetryErr T
  calls : Nat
  sleeps : List ℚ

def retryGo {T : Type} (fn : Nat → Except AttemptErr T) (jit : Nat → ℚ) (baseDelay : ℚ) :
    (remaining attempt : Nat) → Option AttemptErr → RetryTrace T
  | 0, _, lastE =>
    { result := match lastE with
        | some e => .error (.fromAttempt e)
        | none => .error .raiseNone
      calls := 0
      sleeps := [] }
  | r + 1, attempt, _ =>
    match fn attempt with
    | .ok v => { result := .ok v, calls := 1, sleeps := [] }
    | .error e =>
      if r = 0 then { result := .error (.fromAttempt e), calls := 1, sleeps := [] }
      else
        let rest := retryGo fn jit baseDelay r (attempt + 1) (some e)
        { result := rest.result
          calls := rest.calls + 1
          sleeps := (baseDelay * 2 ^ attempt + jit attempt) :: rest.sleeps }

def call_with_retry {T : Type} (fn : Nat → Except AttemptErr T) (jit : Nat → ℚ)
    (maxAttempts : Nat) (baseDelay : ℚ) : RetryTrace T :=
  retryGo fn jit baseDelay maxAttempts 0 none

theorem retryGo_calls_le {T : Type} (fn : Nat → Except AttemptErr T) (jit : Nat → ℚ)
    (baseDelay : ℚ) :
    ∀ r attempt lastE, (retryGo fn jit baseDelay r attempt lastE).calls ≤ r := by
  intro r
  induction r with
  | zero => intro attempt lastE; cases lastE <;> simp [retryGo]
  | succ r ih =>
    intro attempt lastE
    unfold retryGo
    cases fn attempt with
    | ok v => simp
    | error e =>
      by_cases hr : r = 0
      · simp [hr]
      · simpa [hr] using ih (attempt + 1) (some e)

theorem retryGo_calls_pos {T : Type} (fn : Nat → Except AttemptErr T) (jit : Nat → ℚ)
    (baseDelay : ℚ) (r attempt : Nat) (lastE : Option AttemptErr) (hr : 1 ≤ r) :
    1 ≤ (retryGo fn jit baseDelay r attempt lastE).calls := by
  obtain ⟨r, rfl⟩ : ∃ r0, r = r0 + 1 := ⟨r - 1, by omega⟩
  unfold retryGo
  cases fn attempt with
  | ok v => simp
  | error e =>
    by_cases hr0 : r = 0
    · simp [hr0]
    · simp [hr0]

theorem retryGo_sleeps {T : Type} (fn : Nat → Except AttemptErr T) (jit : Nat → ℚ)
    (baseDelay : ℚ) :
    ∀ r attempt lastE,
      (retryGo fn jit baseDelay r attempt lastE).sleeps
        = (List.range ((retryGo fn jit baseDelay r attempt lastE).calls - 1)).map
            fun i => baseDelay * 2 ^ (attempt + i) + jit (attempt + i) := by
  intro r
  induction r with
  | zero => intro attempt lastE; cases lastE <;> simp [retryGo]
  | succ r ih =>
    intro attempt lastE
    unfold retryGo
    cases fn attempt with
    | ok v => simp
    | error e =>
      by_cases hr : r = 0
      · simp [hr]
      · have hpos := retryGo_calls_pos fn jit baseDelay r (attempt + 1) (some e) (by omega)
        obtain ⟨k, hk⟩ : ∃ k, (retryGo fn jit baseDelay r (attempt + 1) (some e)).calls = k + 1 :=
          ⟨(retryGo fn jit baseDelay r (attempt + 1) (some e)).calls - 1, by omega⟩
        have ihr := ih (attempt + 1) (some e)
        rw [hk] at ihr
        simp only [hr, if_false]
        show (baseDelay * 2 ^ attempt + jit attempt)
            :: (retryGo fn jit baseDelay r (attempt + 1) (some e)).sleeps
          = (List.range ((retryGo fn jit baseDelay r (attempt + 1) (some e)).calls + 1 - 1)).map
              fun i => baseDelay * 2 ^ (attempt + i) + jit (attempt + i)
        simp only [Nat.add_sub_cancel] at ihr
        rw [Nat.add_sub_cancel, hk, ihr, List.range_succ_eq_map, List.map_cons, List.map_map]
        have htail : ∀ i ∈ List.range k,
            baseDelay * 2 ^ (attempt + 1 + i) + jit (attempt + 1 + i)
              = ((fun i => baseDelay * 2 ^ (attempt + i) + jit (attempt + i)) ∘ Nat.succ) i := by
          intro i _
          have hidx : attempt + 1 + i = attempt + (i + 1) := by omega
          simp [Function.comp, hidx]
        simp only [List.cons.injEq]
        exact ⟨by simp, List.map_congr_left htail⟩

theorem retryGo_allfail {T : Type} (fn : Nat → Except AttemptErr T) (jit : Nat → ℚ)
    (baseDelay : ℚ) (err : Nat → AttemptErr) :
    ∀ r attempt lastE, 1 ≤ r →
      (∀ i, i < r → fn (attempt + i) = .error (err (attempt + i))) →
      (retryGo fn jit baseDelay r attempt lastE).result
          = .error (.fromAttempt (err (attempt + r - 1)))
        ∧ (retryGo fn jit baseDelay r attempt lastE).calls = r := by
  intro r
  induction r with
  | zero => omega
  | succ r ih =>
    intro attempt lastE _ hfail
    have h0 : fn attempt = .error (err attempt) := by simpa using hfail 0 (by omega)
    unfold retryGo
    rw [h0]
    by_cases hr : r = 0
    · subst hr
      simp
    · have ihr := ih (attempt + 1) (some (err attempt)) (by omega) ?side
      case side =>
        intro i hi
        have : attempt + 1 + i = attempt + (i + 1) := by omega
        rw [this]
        exact hfail (i + 1) (by omega)
      simp only [hr, if_false]
      have : attempt + 1 + r - 1 = attempt + (r + 1) - 1 := by omega
      rw [this] at ihr
      exact ⟨ihr.1, by simp [ihr.2]⟩

theorem retryGo_succeeds {T : Type} (fn : Nat → Except AttemptErr T) (jit : Nat → ℚ)
    (baseDelay : ℚ) (v : T) :
    ∀ r k attempt lastE, k < r →
      (∀ i, i < k → ∃ e, fn (attempt + i) = .error e) →
      fn (attempt + k) = .ok v →
      (retryGo fn jit baseDelay r attempt lastE).result = .ok v
        ∧ (retryGo fn jit baseDelay r attempt lastE).calls = k + 1 := by
  intro r
  induction r with
  | zero => omega
  | succ r ih =>
    intro k attempt lastE hk hfail hok
    cases k with
    | zero =>
      rw [Nat.add_zero] at hok
      unfold retryGo
      rw [hok]
      simp
    | succ k =>
      obtain ⟨e, he⟩ := by simpa using hfail 0 (by omega)
      unfold retryGo
      rw [he]
      have hr : r ≠ 0 := by omega
      have ihr := ih k (attempt + 1) (some e) (by omega) ?sidefail ?sideok
      case sidefail =>
        intro i hi
        have : attempt + 1 + i = attempt + (i + 1) := by omega
        rw [this]
        exact hfail (i + 1) (by omega)
      case sideok =>
        have : attempt + 1 + k = attempt + (k + 1) := by omega
        rw [this]
        exact hok
      simp only [hr, if_false]
      exact ⟨ihr.1, by simp [ihr.2]⟩

/-- Claim C7: `call_with_retry` invokes the operation at most `max_attempts`
times; a sleep of `base_delay * 2^attempt + jitter(attempt)` occurs exactly
between failed attempts (never after a success, never after the last attempt);
when every attempt fails the last attempt's own failure is re-raised; and an
operation failing twice then succeeding under `max_attempts = 3` returns the
success with exactly 3 invocations and the two backoff sleeps. -/
theorem claim_C7_retry_contract :
    ∀ (T : Type) (fn : Nat → Except AttemptErr T) (jit : Nat → ℚ)
      (maxAttempts : Nat) (baseDelay : ℚ),
    (call_with_retry fn jit maxAttempts baseDelay).calls ≤ maxAttempts
    ∧ ((call_with_retry fn jit maxAttempts baseDelay).sleeps
        = (List.range ((call_with_retry fn jit maxAttempts baseDelay).calls - 1)).map
            fun i => baseDelay * 2 ^ i + jit i)
    ∧ (∀ err : Nat → AttemptErr, 1 ≤ maxAttempts →
        (∀ i, i < maxAttempts → fn i = .error (err i)) →
        (call_with_retry fn jit maxAttempts baseDelay).result
            = .error (.fromAttempt (err (maxAttempts - 1)))
          ∧ (call_with_retry fn jit maxAttempts baseDelay).calls = maxAttempts)
    ∧ (∀ v : T, maxAttempts = 3 →
        (∃ e0, fn 0 = .error e0) → (∃ e1, fn 1 = .error e1) → fn 2 = .ok v →
        (call_with_retry fn jit maxAttempts baseDelay).result = .ok v
          ∧ (call_with_retry fn jit maxAttempts baseDelay).calls = 3
          ∧ (call_with_retry fn jit maxAttempts baseDelay).sleeps
              = [baseDelay + jit 0, baseDelay * 2 + jit 1]) := by
  intro T fn jit maxAttempts baseDelay
  refine ⟨retryGo_calls_le fn jit baseDelay maxAttempts 0 none, ?_, ?_, ?_⟩
  · have := retryGo_sleeps fn jit baseDelay maxAttempts 0 none
    simpa [call_with_retry] using this
  · intro err h1 hfail
    have := retryGo_allfail fn jit baseDelay err maxAttempts 0 none h1 ?side
    case side => intro i hi; simpa using hfail i hi
    simpa [call_with_retry] using this
  · rintro v rfl he0 he1 hok
    obtain ⟨e0, he0⟩ := he0
    obtain ⟨e1, he1⟩ := he1
    have hsuc := retryGo_succeeds fn jit baseDelay v 3 2 0 none (by omega) ?side (by simpa using hok)
    case side =>
      intro i hi
      interval_cases i
      · exact ⟨e0, by simpa using he0⟩
      · exact ⟨e1, by simpa using he1⟩
    have hres : (call_with_retry fn jit 3 baseDelay).result = .ok v := hsuc.1
    have hcalls : (call_with_retry fn jit 3 baseDelay).calls = 3 := hsuc.2
    refine ⟨hres, hcalls, ?_⟩
    have hs := retryGo_sleeps fn jit baseDelay 3 0 none
    rw [show (retryGo fn jit baseDelay 3 0 none).calls = 3 from hcalls] at hs
    have : (call_with_retry fn jit 3 baseDelay).sleeps
        = (List.range 2).map fun i => baseDelay * 2 ^ (0 + i) + jit (0 + i) := hs
    rw [this]
    have h2 : List.range 2 = [0, 1] := by decide
    rw [h2]
    simp only [List.map_cons, List.map_nil, List.cons.injEq]
    refine ⟨by norm_num, by norm_num [pow_succ], trivial⟩

/-- Witness for C7: an always-failing operation under three attempts. -/
theorem claim_C7_witness :
    (call_with_retry (fun _ => (.error .timeout : Except AttemptErr Nat)) (fun _ => 0) 3 1).result
        = .error (.fromAttempt .timeout)
      ∧ (call_with_retry (fun _ => (.error .timeout : Except AttemptErr Nat))
          (fun _ => 0) 3 1).calls = 3 :=
  (claim_C7_retry_contract Nat (fun _ => .error .timeout) (fun _ => 0) 3 1).2.2.1
    (fun _ => .timeout) (by norm_num) (fun _ _ => rfl)

/-! ## Chunking (`src/thematic_lm/utils/chunking.py`)

`chunk_text` scans the source once with
`re.compile(r'(.*?)(?:\n\n|$)', re.DOTALL).finditer` to find paragraph spans
(skipping empty group-1 matches), emits a whole paragraph as one chunk when its
token count fits `max_tokens`, and otherwise splits the paragraph with
`re.compile(r'[^.!?]+[.!?]\s*|[^.!?]+$').finditer`, emitting one chunk per
sentence with offsets shifted to be absolute.  Chunk texts are always slices
of the original text and `chunk_index` counts up from 0.

The scanners below are the deterministic readings of those two `finditer`
loops:

* The lazy group `(.*?)` stops at the first position where `\n\n` matches or
  at a `$` position (end of string, or just before a terminal newline —
  Python `$` semantics without `re.MULTILINE`).  A zero-width `$` match makes
  `finditer` advance by one (CPython's empty-match rule), a `\n\n` match
  resumes after the separator.
* In the sentence pattern, both alternatives start with `[^.!?]+`, so a match
  can only start on a non-terminator character; the greedy class run either
  reaches a terminator (first alternative, then `\s*` absorbs trailing
  whitespace) or the end of the text (second alternative).  Positions holding
  terminator characters match neither alternative and are skipped one by one.

The token counter (`tiktoken`) is an external collaborator and enters the
model as an oracle `tok : PyStr → Nat`.  All scans carry explicit fuel so the
kernel can evaluate them; the fuel provided always suffices because every
step advances the position. -/

/-- Python `re` `\s` for `str` patterns: Unicode whitespace. -/
def isPySpace (c : Char) : Bool :=
  c = ' ' || c = '\t' || c = '\n' || c = '\r' || c = '\x0b' || c = '\x0c' ||
  c = '\x1c' || c = '\x1d' || c = '\x1e' || c = '\x1f' || c = '\x85' || c = '\xa0' ||
  c = '\u1680' || ('\u2000' ≤ c && c ≤ '\u200A') || c = '\u2028' || c = '\u2029' ||
  c = '\u202F' || c = '\u205F' || c = '\u3000'

def isTerm (c : Char) : Bool := c = '.' || c = '!' || c = '?'

def charAt (t : PyStr) (i : Nat) : Option Char := (t.drop i).head?

/-- `\n\n` matches at position `q`. -/
def nlnlAt (t : PyStr) (q : Nat) : Bool :=
  match t.drop q with
  | '\n' :: '\n' :: _ => true
  | _ => false

/-- `$` matches at position `q` (end of string or just before a final newline). -/
def dollarAt (t : PyStr) (q : Nat) : Bool :=
  q = t.length || t.drop q = ['\n']

def stopAt (t : PyStr) (q : Nat) : Bool := nlnlAt t q || dollarAt t q

/-- Least `q ≥ pos` where the lazy paragraph group can stop. -/
def findStop (t : PyStr) : Nat → Nat → Nat
  | 0, pos => pos
  | fuel + 1, pos => if stopAt t pos then pos else findStop t fuel (pos + 1)

/-- The paragraph `finditer` loop; emits the spans of group 1, skipping the
empty ones (the `if para_start == para_end: continue` in the source).

`prevEmpty` models CPython's empty-match rule (3.7+): after a zero-width
match at `pos`, the iterator looks for a non-empty match starting at the same
`pos` (forcing the lazy group to take at least one character) and moves on
only if there is none.  A zero-width match of this pattern is a `$`-match
with an empty group, so `prevEmpty` can only be set at the last two positions
of the text. -/
def paraScan (t : PyStr) : Nat → Nat → Bool → List (Nat × Nat)
  | 0, _, _ => []
  | fuel + 1, pos, prevEmpty =>
    if t.length < pos then []
    else
      if prevEmpty then
        if pos < t.length then
          let q := findStop t (t.length + 1 - pos) (pos + 1)
          if nlnlAt t q then (pos, q) :: paraScan t fuel (q + 2) false
          else (pos, q) :: paraScan t fuel q false
        else []
      else
        let q := findStop t (t.length + 1 - pos) pos
        if nlnlAt t q then
          (if pos < q then [(pos, q)] else []) ++ paraScan t fuel (q + 2) false
        else
          if pos < q then (pos, q) :: paraScan t fuel q false
          else paraScan t fuel pos true

def paraSpans (t : PyStr) : List (Nat × Nat) := paraScan t (2 * t.length + 4) 0 false

/-- Greedy run of characters satisfying `p`, starting at `pos`. -/
def scanRun (p : Char → Bool) (t : PyStr) : Nat → Nat → Nat
  | 0, pos => pos
  | fuel + 1, pos =>
    match charAt t pos with
    | some c => if p c then scanRun p t fuel (pos + 1) else pos
    | none => pos

/-- The sentence `finditer` loop over a paragraph's text. -/
def sentScan (t : PyStr) : Nat → Nat → List (Nat × Nat)
  | 0, _ => []
  | fuel + 1, pos =>
    match charAt t pos with
    | none => []
    | some c =>
      if isTerm c then sentScan t fuel (pos + 1)
      else
        let r := scanRun (fun ch => !isTerm ch) t (t.length - pos) (pos + 1)
        if r < t.length then
          let w := scanRun isPySpace t (t.length - r) (r + 1)
          (pos, w) :: sentScan t fuel w
        else
          [(pos, t.length)]

def sentSpans (t : PyStr) : List (Nat × Nat) := sentScan t (t.length + 1) 0

structure Chunk where
  chunkIndex : Nat
  text : PyStr
  startPos : Nat
  endPos : Nat
  tokenCount : Nat
deriving DecidableEq

/-- The spans of the chunks emitted by `chunk_text`, in order: one span per
paragraph that fits the budget, otherwise the paragraph's sentence spans
shifted to absolute offsets. -/
def chunkSpans (text : PyStr) (tok : PyStr → Nat) (maxTokens : Nat) : List (Nat × Nat) :=
  (paraSpans text).flatMap fun pq =>
    if tok (sliceL text pq.1 pq.2) ≤ maxTokens then [pq]
    else (sentSpans (sliceL text pq.1 pq.2)).map fun se => (pq.1 + se.1, pq.1 + se.2)

/-- `chunk_text`: every chunk's `text` is a slice of the original, and
`chunk_index` is the position in emission order. -/
def chunk_text (text : PyStr) (tok : PyStr → Nat) (maxTokens : Nat) : List Chunk :=
  (chunkSpans text tok maxTokens).enum.map fun ic =>
    ⟨ic.1, sliceL text ic.2.1 ic.2.2, ic.2.1, ic.2.2, tok (sliceL text ic.2.1 ic.2.2)⟩

/-- Well-formed, ordered, in-bounds span list starting at or after `pos`. -/
def Chained (len : Nat) : Nat → List (Nat × Nat) → Prop
  | _, [] => True
  | pos, se :: rest => pos ≤ se.1 ∧ se.1 < se.2 ∧ se.2 ≤ len ∧ Chained len se.2 rest

/-- The source text reassembled from a span list: leading gap, first span's
slice, inter-span gaps, and (in the `[]` case) everything after the last span. -/
def reassemble (text : PyStr) : Nat → List (Nat × Nat) → PyStr
  | pos, [] => text.drop pos
  | pos, se :: rest =>
    sliceL text pos se.1 ++ sliceL text se.1 se.2 ++ reassemble text se.2 rest

theorem findStop_ge (t : PyStr) : ∀ fuel pos, pos ≤ findStop t fuel pos := by
  intro fuel
  induction fuel with
  | zero => intro pos; simp [findStop]
  | succ fuel ih =>
    intro pos
    unfold findStop
    by_cases h : stopAt t pos = true
    · simp [h]
    · simp only [h, if_false]
      exact le_trans (by omega) (ih (pos + 1))

theorem stopAt_length (t : PyStr) : stopAt t t.length = true := by
  simp [stopAt, dollarAt]

theorem findStop_le (t : PyStr) : ∀ fuel pos, pos ≤ t.length → findStop t fuel pos ≤ t.length := by
  intro fuel
  induction fuel with
  | zero => intro pos h; simpa [findStop] using h
  | succ fuel ih =>
    intro pos h
    unfold findStop
    by_cases hs : stopAt t pos = true
    · simpa [hs] using h
    · have hlt : pos < t.length := by
        rcases Nat.lt_or_ge pos t.length with h1 | h1
        · exact h1
        · have : pos = t.length := by omega
          rw [this] at hs
          exact absurd (stopAt_length t) hs
      simp only [hs, if_false]
      exact ih (pos + 1) (by omega)

theorem nlnlAt_bound {t : PyStr} {q : Nat} (h : nlnlAt t q = true) : q + 2 ≤ t.length := by
  unfold nlnlAt at h
  split at h
  · rename_i rest heq
    have := congrArg List.length heq
    simp at this
    omega
  · exact absurd h (by simp)

theorem scanRun_ge (p : Char → Bool) (t : PyStr) : ∀ fuel pos, pos ≤ scanRun p t fuel pos := by
  intro fuel
  induction fuel with
  | zero => intro pos; simp [scanRun]
  | succ fuel ih =>
    intro pos
    unfold scanRun
    cases hc : charAt t pos with
    | none => simp
    | some c =>
      by_cases hp : p c = true
      · simp only [hp, if_true]
        exact le_trans (by omega) (ih (pos + 1))
      · simp [hp]

theorem charAt_some_lt {t : PyStr} {i : Nat} {c : Char} (h : charAt t i = some c) :
    i < t.length := by
  unfold charAt at h
  rcases Nat.lt_or_ge i t.length with h1 | h1
  · exact h1
  · rw [List.drop_eq_nil_of_le h1] at h
    exact absurd h (by simp)

theorem scanRun_le (p : Char → Bool) (t : PyStr) :
    ∀ fuel pos, pos ≤ t.length → scanRun p t fuel pos ≤ t.length := by
  intro fuel
  induction fuel with
  | zero => intro pos h; simpa [scanRun] using h
  | succ fuel ih =>
    intro pos h
    unfold scanRun
    cases hc : charAt t pos with
    | none => simpa using h
    | some c =>
      by_cases hp : p c = true
      · simp only [hp, if_true]
        exact ih (pos + 1) (charAt_some_lt hc)
      · simpa [hp] using h

theorem chained_mono {len : Nat} : ∀ {l : List (Nat × Nat)} {pos pos' : Nat},
    pos ≤ pos' → Chained len pos' l → Chained len pos l := by
  intro l
  cases l with
  | nil => intro pos pos' _ _; trivial
  | cons se rest =>
    intro pos pos' hle h
    obtain ⟨h1, h2, h3, h4⟩ := h
    exact ⟨le_trans hle h1, h2, h3, h4⟩

theorem chained_append {len : Nat} (mid : Nat) : ∀ {xs ys : List (Nat × Nat)} {pos : Nat},
    pos ≤ mid → mid ≤ len → Chained mid pos xs → Chained len mid ys →
    Chained len pos (xs ++ ys) := by
  intro xs
  induction xs with
  | nil =>
    intro ys pos h1 _ _ hy
    exact chained_mono h1 hy
  | cons se rest ih =>
    intro ys pos h1 h2 hx hy
    obtain ⟨hx1, hx2, hx3, hx4⟩ := hx
    exact ⟨hx1, hx2, le_trans hx3 h2, ih hx3 h2 hx4 hy⟩

theorem chained_forall {len : Nat} : ∀ {l : List (Nat × Nat)} {pos : Nat},
    Chained len pos l → ∀ se ∈ l, pos ≤ se.1 ∧ se.1 < se.2 ∧ se.2 ≤ len := by
  intro l
  induction l with
  | nil => intro pos _ se hse; cases hse
  | cons hd rest ih =>
    intro pos h se hse
    obtain ⟨h1, h2, h3, h4⟩ := h
    rcases List.mem_cons.mp hse with rfl | hmem
    · exact ⟨h1, h2, h3⟩
    · obtain ⟨g1, g2, g3⟩ := ih h4 se hmem
      exact ⟨by omega, g2, g3⟩

theorem chained_pairwise {len : Nat} : ∀ {l : List (Nat × Nat)} {pos : Nat},
    Chained len pos l → l.Pairwise (fun a b => a.2 ≤ b.1) := by
  intro l
  induction l with
  | nil => intro pos _; exact List.Pairwise.nil
  | cons hd rest ih =>
    intro pos h
    obtain ⟨h1, h2, h3, h4⟩ := h
    refine List.Pairwise.cons ?_ (ih h4)
    intro b hb
    exact (chained_forall h4 b hb).1

theorem chained_shift {L : Nat} (b : Nat) : ∀ {l : List (Nat × Nat)} {p : Nat},
    Chained L p l → Chained (b + L) (b + p) (l.map fun se => (b + se.1, b + se.2)) := by
  intro l
  induction l with
  | nil => intro p _; trivial
  | cons hd rest ih =>
    intro p h
    obtain ⟨h1, h2, h3, h4⟩ := h
    rw [List.map_cons]
    exact ⟨by dsimp only; omega, by dsimp only; omega, by dsimp only; omega, ih h4⟩

theorem paraScan_chained (t : PyStr) :
    ∀ fuel pos pe, Chained t.length pos (paraScan t fuel pos pe) := by
  intro fuel
  induction fuel with
  | zero => intro pos pe; simp only [paraScan]; trivial
  | succ fuel ih =>
    intro pos pe
    unfold paraScan
    by_cases hlen : t.length < pos
    · simp only [hlen, if_true]; trivial
    · simp only [hlen, if_false]
      have hpos : pos ≤ t.length := by omega
      cases pe with
      | true =>
        simp only [if_true]
        by_cases hlt : pos < t.length
        · simp only [hlt, if_true]
          have hq1 : pos + 1 ≤ findStop t (t.length + 1 - pos) (pos + 1) :=
            findStop_ge t _ (pos + 1)
          have hq2 : findStop t (t.length + 1 - pos) (pos + 1) ≤ t.length :=
            findStop_le t _ (pos + 1) (by omega)
          by_cases hn : nlnlAt t (findStop t (t.length + 1 - pos) (pos + 1)) = true
          · simp only [hn, if_true]
            exact ⟨le_rfl, by omega, hq2, chained_mono (by omega) (ih _ false)⟩
          · simp only [hn, if_false]
            exact ⟨le_rfl, by omega, hq2, ih _ false⟩
        · simp only [hlt, if_false]; trivial
      | false =>
        simp only [Bool.false_eq_true, if_false]
        have hq1 : pos ≤ findStop t (t.length + 1 - pos) pos := findStop_ge t _ pos
        have hq2 : findStop t (t.length + 1 - pos) pos ≤ t.length :=
          findStop_le t _ pos hpos
        by_cases hn : nlnlAt t (findStop t (t.length + 1 - pos) pos) = true
        · simp only [hn, if_true]
          by_cases hlt : pos < findStop t (t.length + 1 - pos) pos
          · simp only [hlt, if_true, List.singleton_append]
            exact ⟨le_rfl, hlt, hq2, chained_mono (by omega) (ih _ false)⟩
          · simp only [hlt, if_false, List.nil_append]
            exact chained_mono (by omega) (ih _ false)
        · simp only [hn, if_false]
          by_cases hlt : pos < findStop t (t.length + 1 - pos) pos
          · simp only [hlt, if_true]
            exact ⟨le_rfl, hlt, hq2, ih _ false⟩
          · simp only [hlt, if_false]
            exact ih pos true

theorem sentScan_chained (t : PyStr) :
    ∀ fuel pos, Chained t.length pos (sentScan t fuel pos) := by
  intro fuel
  induction fuel with
  | zero => intro pos; simp only [sentScan]; trivial
  | succ fuel ih =>
    intro pos
    unfold sentScan
    cases hc : charAt t pos with
    | none => trivial
    | some c =>
      have hpos : pos < t.length := charAt_some_lt hc
      by_cases ht : isTerm c = true
      · simp only [ht, if_true]
        exact chained_mono (by omega) (ih (pos + 1))
      · simp only [ht, if_false]
        have hr1 : pos + 1 ≤ scanRun (fun ch => !isTerm ch) t (t.length - pos) (pos + 1) :=
          scanRun_ge _ t _ (pos + 1)
        have hr2 : scanRun (fun ch => !isTerm ch) t (t.length - pos) (pos + 1) ≤ t.length :=
          scanRun_le _ t _ (pos + 1) (by omega)
        by_cases hrl : scanRun (fun ch => !isTerm ch) t (t.length - pos) (pos + 1) < t.length
        · simp only [hrl, if_true]
          have hw1 := scanRun_ge isPySpace t
            (t.length - scanRun (fun ch => !isTerm ch) t (t.length - pos) (pos + 1))
            (scanRun (fun ch => !isTerm ch) t (t.length - pos) (pos + 1) + 1)
          have hw2 := scanRun_le isPySpace t
            (t.length - scanRun (fun ch => !isTerm ch) t (t.length - pos) (pos + 1))
            (scanRun (fun ch => !isTerm ch) t (t.length - pos) (pos + 1) + 1) (by omega)
          exact ⟨le_rfl, by omega, hw2, ih _⟩
        · simp only [hrl, if_false]
          exact ⟨le_rfl, hpos, le_rfl, trivial⟩

theorem flatMap_expand_chained (text : PyStr) (tok : PyStr → Nat) (maxTokens : Nat) :
    ∀ (spans : List (Nat × Nat)) (pos : Nat), Chained text.length pos spans →
    Chained text.length pos (spans.flatMap fun pq =>
      if tok (sliceL text pq.1 pq.2) ≤ maxTokens then [pq]
      else (sentSpans (sliceL text pq.1 pq.2)).map fun se => (pq.1 + se.1, pq.1 + se.2)) := by
  intro spans
  induction spans with
  | nil => intro pos _; simp only [List.flatMap_nil]; trivial
  | cons pq rest ih =>
    intro pos h
    obtain ⟨h1, h2, h3, h4⟩ := h
    rw [List.flatMap_cons]
    refine chained_append pq.2 (by omega) h3 ?_ (ih pq.2 h4)
    by_cases htok : tok (sliceL text pq.1 pq.2) ≤ maxTokens
    · simp only [htok, if_true]
      exact ⟨h1, h2, le_rfl, trivial⟩
    · simp only [htok, if_false]
      have hsent : Chained (sliceL text pq.1 pq.2).length 0 (sentSpans (sliceL text pq.1 pq.2)) :=
        sentScan_chained (sliceL text pq.1 pq.2) _ 0
      have hshift := chained_shift pq.1 hsent
      have hL : pq.1 + (sliceL text pq.1 pq.2).length = pq.2 := by
        rw [sliceL_length]
        omega
      rw [hL, Nat.add_zero] at hshift
      exact chained_mono h1 hshift

theorem chunkSpans_chained (text : PyStr) (tok : PyStr → Nat) (maxTokens : Nat) :
    Chained text.length 0 (chunkSpans text tok maxTokens) :=
  flatMap_expand_chained text tok maxTokens (paraSpans text) 0
    (paraScan_chained text _ 0 false)

theorem reassemble_eq (text : PyStr) : ∀ (spans : List (Nat × Nat)) (pos : Nat),
    Chained text.length pos spans → reassemble text pos spans = text.drop pos := by
  intro spans
  induction spans with
  | nil => intro pos _; rfl
  | cons se rest ih =>
    intro pos h
    obtain ⟨h1, h2, h3, h4⟩ := h
    show sliceL text pos se.1 ++ sliceL text se.1 se.2 ++ reassemble text se.2 rest
      = text.drop pos
    rw [List.append_assoc, ih se.2 h4, sliceL_append_drop text (le_of_lt h2),
      sliceL_append_drop text h1]

theorem chunk_text_spans (text : PyStr) (tok : PyStr → Nat) (maxTokens : Nat) :
    (chunk_text text tok maxTokens).map (fun c => (c.startPos, c.endPos))
      = chunkSpans text tok maxTokens := by
  unfold chunk_text
  rw [List.map_map]
  have hfun : ((fun c : Chunk => (c.startPos, c.endPos)) ∘ fun ic : Nat × (Nat × Nat) =>
      (⟨ic.1, sliceL text ic.2.1 ic.2.2, ic.2.1, ic.2.2,
        tok (sliceL text ic.2.1 ic.2.2)⟩ : Chunk)) = Prod.snd := by
    funext ic
    rfl
  rw [hfun, List.enum_map_snd]

theorem chunk_text_indices (text : PyStr) (tok : PyStr → Nat) (maxTokens : Nat) :
    (chunk_text text tok maxTokens).map Chunk.chunkIndex
      = List.range (chunk_text text tok maxTokens).length := by
  unfold chunk_text
  rw [List.map_map]
  have hfun : (Chunk.chunkIndex ∘ fun ic : Nat × (Nat × Nat) =>
      (⟨ic.1, sliceL text ic.2.1 ic.2.2, ic.2.1, ic.2.2,
        tok (sliceL text ic.2.1 ic.2.2)⟩ : Chunk)) = Prod.fst := by
    funext ic
    rfl
  rw [hfun, List.enum_map_fst]
  simp

theorem chunk_text_mem {text : PyStr} {tok : PyStr → Nat} {maxTokens : Nat} {c : Chunk}
    (hc : c ∈ chunk_text text tok maxTokens) :
    c.text = sliceL text c.startPos c.endPos
      ∧ (c.startPos, c.endPos) ∈ chunkSpans text tok maxTokens := by
  unfold chunk_text at hc
  obtain ⟨ic, hic, rfl⟩ := List.mem_map.mp hc
  refine ⟨rfl, ?_⟩
  have : ic.2 ∈ (chunkSpans text tok maxTokens).enum.map Prod.snd :=
    List.mem_map_of_mem Prod.snd hic
  rw [List.enum_map_snd] at this
  exact this

/-- Claim C4: for every source text, token counter and budget, every chunk's
text is exactly the slice of the source at its offsets; chunk indices run
`0, 1, 2, …` in output order; the chunk spans are strictly increasing and
pairwise disjoint; and the source text is reconstructed exactly by
concatenating, in order, the gap before the first chunk, each chunk's text,
each inter-chunk gap, and the tail after the last chunk. -/
theorem claim_C4_chunk_invariants :
    ∀ (text : PyStr) (tok : PyStr → Nat) (maxTokens : Nat),
    (∀ c ∈ chunk_text text tok maxTokens, sliceL text c.startPos c.endPos = c.text)
    ∧ ((chunk_text text tok maxTokens).map Chunk.chunkIndex
        = List.range (chunk_text text tok maxTokens).length)
    ∧ (∀ c ∈ chunk_text text tok maxTokens,
        c.startPos < c.endPos ∧ c.endPos ≤ text.length)
    ∧ ((chunk_text text tok maxTokens).map (fun c => (c.startPos, c.endPos))).Pairwise
        (fun a b => a.2 ≤ b.1)
    ∧ reassemble text 0 ((chunk_text text tok maxTokens).map fun c => (c.startPos, c.endPos))
        = text := by
  intro text tok maxTokens
  have hch := chunkSpans_chained text tok maxTokens
  refine ⟨?_, chunk_text_indices text tok maxTokens, ?_, ?_, ?_⟩
  · intro c hc
    exact (chunk_text_mem hc).1.symm
  · intro c hc
    have hmem := (chunk_text_mem hc).2
    have := chained_forall hch _ hmem
    exact ⟨this.2.1, this.2.2⟩
  · rw [chunk_text_spans]
    exact chained_pairwise hch
  · rw [chunk_text_spans, reassemble_eq text _ 0 hch, List.drop_zero]

/-- Witness for C4 at a concrete text and token counter. -/
theorem claim_C4_witness :
    sliceL (chars "One two.\n\nThree four.") 0 8 = chars "One two." := by
  have h := (claim_C4_chunk_invariants (chars "One two.\n\nThree four.") List.length 100).1
  exact h ⟨0, chars "One two.", 0, 8, 8⟩ (by decide)

/-- Claim C10: on `"First para.\n\nSecond para."` with a budget that fits each
paragraph, `chunk_text` returns exactly the two paragraph chunks with indices
0 and 1, texts `"First para."` and `"Second para."`, and spans `[0,11)` and
`[13,25)`; and on the empty source it returns the empty sequence. -/
theorem claim_C10_chunk_example :
    (∀ (tok : PyStr → Nat) (maxTokens : Nat),
      tok (chars "First para.") ≤ maxTokens → tok (chars "Second para.") ≤ maxTokens →
      chunk_text (chars "First para.\n\nSecond para.") tok maxTokens
        = [⟨0, chars "First para.", 0, 11, tok (chars "First para.")⟩,
           ⟨1, chars "Second para.", 13, 25, tok (chars "Second para.")⟩])
    ∧ (∀ (tok : PyStr → Nat) (maxTokens : Nat), chunk_text [] tok maxTokens = []) := by
  constructor
  · intro tok maxTokens h1 h2
    have hs1 : sliceL (chars "First para.\n\nSecond para.") 0 11 = chars "First para." := by
      decide
    have hs2 : sliceL (chars "First para.\n\nSecond para.") 13 25 = chars "Second para." := by
      decide
    have hspans : chunkSpans (chars "First para.\n\nSecond para.") tok maxTokens
        = [(0, 11), (13, 25)] := by
      unfold chunkSpans
      rw [show paraSpans (chars "First para.\n\nSecond para.") = [(0, 11), (13, 25)] from
        by decide]
      simp only [List.flatMap_cons, List.flatMap_nil]
      rw [show sliceL (chars "First para.\n\nSecond para.") (0, 11).1 (0, 11).2
            = chars "First para." from hs1,
        show sliceL (chars "First para.\n\nSecond para.") (13, 25).1 (13, 25).2
            = chars "Second para." from hs2,
        if_pos h1, if_pos h2]
      rfl
    unfold chunk_text
    rw [hspans]
    show [(⟨0, sliceL (chars "First para.\n\nSecond para.") 0 11, 0, 11,
            tok (sliceL (chars "First para.\n\nSecond para.") 0 11)⟩ : Chunk),
          ⟨1, sliceL (chars "First para.\n\nSecond para.") 13 25, 13, 25,
            tok (sliceL (chars "First para.\n\nSecond para.") 13 25)⟩]
      = [⟨0, chars "First para.", 0, 11, tok (chars "First para.")⟩,
         ⟨1, chars "Second para.", 13, 25, tok (chars "Second para.")⟩]
    rw [hs1, hs2]
  · intro tok maxTokens
    rfl

/-- Witness for C10 with the character-count token counter and budget 100. -/
theorem claim_C10_witness :
    chunk_text (chars "First para.\n\nSecond para.") List.length 100
      = [⟨0, chars "First para.", 0, 11, 11⟩, ⟨1, chars "Second para.", 13, 25, 12⟩] := by
  have h := claim_C10_chunk_example.1 List.length 100 (by decide) (by decide)
  exact h

/-! ## Resilient JSON extraction (`src/thematic_lm/utils/json_safety.py`)

`parse_json_array` tries, in order: direct `json.loads`; a ```` ```json ````
fenced block; a bare ``` ``` ``` fenced block; and a quote-aware bracket
scan for the first complete top-level array.  A parsed `dict` containing a
`"codes"` key is normalized by returning `result["codes"]` — whatever value
that is.  On total failure it returns `[]`.  It never raises.

`Json` models Python values produced by `json.loads`: numerals keep their
source literal (integer vs. float only matters downstream, where it is
decided from the literal, as the `json` module itself does); object fields
keep source order, with lookups taking the last duplicate (dict overwrite
semantics).  The parser below follows the `json` module's grammar: `null`,
`true`, `false`, `NaN`, `Infinity`, `-Infinity`, strict strings (raw control
characters rejected, the standard escapes and `\uXXXX` with surrogate-pair
combination; a lone surrogate, unrepresentable in `Char`, is mapped to
U+FFFD), numbers without leading zeros, arrays and objects with `,`/`:`
separators and ASCII whitespace between tokens. -/

inductive Json where
  | null
  | bool (b : Bool)
  | num (lit : PyStr)
  | str (s : PyStr)
  | arr (elems : List Json)
  | obj (fields : List (PyStr × Json))

/-- Whitespace skipped by the `json` module between tokens. -/
def jsonWs (c : Char) : Bool := c = ' ' || c = '\t' || c = '\n' || c = '\r'

def skipWs (s : PyStr) : PyStr := s.dropWhile jsonWs

def hexVal (c : Char) : Option Nat :=
  if '0' ≤ c ∧ c ≤ '9' then some (c.toNat - 48)
  else if 'a' ≤ c ∧ c ≤ 'f' then some (c.toNat - 87)
  else if 'A' ≤ c ∧ c ≤ 'F' then some (c.toNat - 55)
  else none

def isHighSurrogate (n : Nat) : Bool := 0xD800 ≤ n && n ≤ 0xDBFF

def isLowSurrogate (n : Nat) : Bool := 0xDC00 ≤ n && n ≤ 0xDFFF

/-- A scalar for a code unit: lone surrogates become U+FFFD (Lean `Char`
cannot carry them; Python keeps them — outside this model). -/
def unitChar (n : Nat) : Char :=
  if h : n.isValidChar then Char.ofNatAux n h else '�'

/-- String body parser, after the opening quote: returns content and the
text after the closing quote. -/
def parseJString : Nat → PyStr → Option (PyStr × PyStr)
  | 0, _ => none
  | fuel + 1, s =>
    match s with
    | [] => none
    | '"' :: rest => some ([], rest)
    | '\\' :: 'u' :: h1 :: h2 :: h3 :: h4 :: rest =>
      match hexVal h1, hexVal h2, hexVal h3, hexVal h4 with
      | some d1, some d2, some d3, some d4 =>
        let code := ((d1 * 16 + d2) * 16 + d3) * 16 + d4
        if isHighSurrogate code then
          match rest with
          | '\\' :: 'u' :: g1 :: g2 :: g3 :: g4 :: rest2 =>
            match hexVal g1, hexVal g2, hexVal g3, hexVal g4 with
            | some e1, some e2, some e3, some e4 =>
              let code2 := ((e1 * 16 + e2) * 16 + e3) * 16 + e4
              if isLowSurrogate code2 then
                (parseJString fuel rest2).map fun p =>
                  (unitChar (0x10000 + (code - 0xD800) * 0x400 + (code2 - 0xDC00)) :: p.1, p.2)
              else
                (parseJString fuel rest).map fun p => (unitChar code :: p.1, p.2)
            | _, _, _, _ => (parseJString fuel rest).map fun p => (unitChar code :: p.1, p.2)
          | _ => (parseJString fuel rest).map fun p => (unitChar code :: p.1, p.2)
        else
          (parseJString fuel rest).map fun p => (unitChar code :: p.1, p.2)
      | _, _, _, _ => none
    | '\\' :: e :: rest =>
      let esc : Option Char :=
        if e = '"' then some '"'
        else if e = '\\' then some '\\'
        else if e = '/' then some '/'
        else if e = 'b' then some '\x08'
        else if e = 'f' then some '\x0c'
        else if e = 'n' then some '\n'
        else if e = 'r' then some '\r'
        else if e = 't' then some '\t'
        else none
      match esc with
      | some c => (parseJString fuel rest).map fun p => (c :: p.1, p.2)
      | none => none
    | c :: rest =>
      if c.toNat < 0x20 then none
      else (parseJString fuel rest).map fun p => (c :: p.1, p.2)

/-- `NUMBER_RE` of the `json` module: `-?(0|[1-9]\d*)(\.\d+)?([eE][-+]?\d+)?`;
returns the matched literal and the rest. -/
def parseNumber (s : PyStr) : Option (PyStr × PyStr) :=
  let (sign, s1) := match s with
    | '-' :: r => ((['-'] : PyStr), r)
    | _ => (([] : PyStr), s)
  match s1 with
  | c :: r =>
    if c = '0' ∨ isAsciiDigit c = false then
      if c = '0' then
        let (frac, s2) := numFrac r
        let (ex, s3) := numExp s2
        some (sign ++ ['0'] ++ frac ++ ex, s3)
      else none
    else
      let intRest := r.takeWhile isAsciiDigit
      let s2 := r.dropWhile isAsciiDigit
      let (frac, s3) := numFrac s2
      let (ex, s4) := numExp s3
      some (sign ++ c :: intRest ++ frac ++ ex, s4)
  | [] => none
where
  numFrac (s : PyStr) : PyStr × PyStr :=
    match s with
    | '.' :: r =>
      let ds := r.takeWhile isAsciiDigit
      if ds.isEmpty then ([], s) else ('.' :: ds, r.dropWhile isAsciiDigit)
    | _ => ([], s)
  numExp (s : PyStr) : PyStr × PyStr :=
    match s with
    | e :: r =>
      if e = 'e' ∨ e = 'E' then
        match r with
        | sg :: r2 =>
          if sg = '+' ∨ sg = '-' then
            let ds := r2.takeWhile isAsciiDigit
            if ds.isEmpty then ([], s) else (e :: sg :: ds, r2.dropWhile isAsciiDigit)
          else
            let ds := r.takeWhile isAsciiDigit
            if ds.isEmpty then ([], s) else (e :: ds, r.dropWhile isAsciiDigit)
        | [] => ([], s)
      else ([], s)
    | [] => ([], s)

mutual

def parseValue : Nat → PyStr → Option (Json × PyStr)
  | 0, _ => none
  | fuel + 1, s =>
    match s with
    | '"' :: r => (parseJString fuel r).map fun p => (.str p.1, p.2)
    | '{' :: r => parseObjAfter fuel (skipWs r)
    | '[' :: r => parseArrAfter fuel (skipWs r)
    | 'n' :: 'u' :: 'l' :: 'l' :: r => some (.null, r)
    | 't' :: 'r' :: 'u' :: 'e' :: r => some (.bool true, r)
    | 'f' :: 'a' :: 'l' :: 's' :: 'e' :: r => some (.bool false, r)
    | 'N' :: 'a' :: 'N' :: r => some (.num ['N', 'a', 'N'], r)
    | 'I' :: 'n' :: 'f' :: 'i' :: 'n' :: 'i' :: 't' :: 'y' :: r =>
      some (.num ['I', 'n', 'f', 'i', 'n', 'i', 't', 'y'], r)
    | '-' :: 'I' :: 'n' :: 'f' :: 'i' :: 'n' :: 'i' :: 't' :: 'y' :: r =>
      some (.num ['-', 'I', 'n', 'f', 'i', 'n', 'i', 't', 'y'], r)
    | _ => (parseNumber s).map fun p => (.num p.1, p.2)

def parseArrAfter : Nat → PyStr → Option (Json × PyStr)
  | 0, _ => none
  | fuel + 1, s =>
    match s with
    | ']' :: r => some (.arr [], r)
    | _ => parseElems fuel s []

def parseElems : Nat → PyStr → List Json → Option (Json × PyStr)
  | 0, _, _ => none
  | fuel + 1, s, acc =>
    match parseValue fuel s with
    | none => none
    | some (v, r) =>
      match skipWs r with
      | ',' :: r2 => parseElems fuel (skipWs r2) (acc ++ [v])
      | ']' :: r2 => some (.arr (acc ++ [v]), r2)
      | _ => none

def parseObjAfter : Nat → PyStr → Option (Json × PyStr)
  | 0, _ => none
  | fuel + 1, s =>
    match s with
    | '}' :: r => some (.obj [], r)
    | _ => parseMembers fuel s []

def parseMembers : Nat → PyStr → List (PyStr × Json) → Option (Json × PyStr)
  | 0, _, _ => none
  | fuel + 1, s, acc =>
    match s with
    | '"' :: r =>
      match parseJString fuel r with
      | none => none
      | some (key, r2) =>
        match skipWs r2 with
        | ':' :: r3 =>
          match parseValue fuel (skipWs r3) with
          | none => none
          | some (v, r4) =>
            match skipWs r4 with
            | ',' :: r5 => parseMembers fuel (skipWs r5) (acc ++ [(key, v)])
            | '}' :: r5 => some (.obj (acc ++ [(key, v)]), r5)
            | _ => none
        | _ => none
    | _ => none

end

/-- `json.loads`: parse one value with surrounding whitespace, requiring the
whole input to be consumed; `none` is `JSONDecodeError`. -/
def jsonLoads (s : PyStr) : Option Json :=
  match parseValue (4 * s.length + 8) (skipWs s) with
  | some (v, rest) => if skipWs rest = [] then some v else none
  | none => none

/-- Python dict lookup on the parsed member list: the last duplicate wins. -/
def objGet (kvs : List (PyStr × Json)) (k : PyStr) : Option Json :=
  kvs.foldl (fun acc p => if p.1 = k then some p.2 else acc) none

/-- Steps 1-3 share this normalization: a list is returned as is, a dict with
a `"codes"` key yields `result["codes"]` (any value), anything else falls
through to the next strategy. -/
def tryListOrCodes (v : Json) : Option Json :=
  match v with
  | .arr l => some (.arr l)
  | .obj kvs => objGet kvs (chars "codes")
  | _ => none

def lastNl : PyStr → Option Nat
  | [] => none
  | c :: t =>
    match lastNl t with
    | some i => some (i + 1)
    | none => if c = '\n' then some 0 else none

/-- Content of a fenced block whose opener ends right before `rest`:
`\s*` greedily takes the whitespace run and backtracks to its last newline,
then the lazy group ends at the first later `\n` + three backticks.  (The one
further backtracking case of the Python regex — ending the `\s*` at an
earlier newline so that the run's final newline closes the fence — can only
produce whitespace-only content, which never parses as JSON, so it cannot
change `parse_json_array`'s result and is omitted.) -/
def fenceContentAt (rest : PyStr) : Option PyStr :=
  match lastNl (rest.takeWhile isPySpace) with
  | none => none
  | some q =>
    match findSub (rest.drop (q + 1)) ['\n', '`', '`', '`'] with
    | some r => some ((rest.drop (q + 1)).take r)
    | none => none

/-- `re.search` for an opener followed by a fence body: leftmost opener
position whose fence completes. -/
def fencedSearch (opener : PyStr) : Nat → PyStr → Option PyStr
  | 0, _ => none
  | fuel + 1, s =>
    if opener.isPrefixOf s then
      match fenceContentAt (s.drop opener.length) with
      | some content => some content
      | none =>
        match s with
        | [] => none
        | _ :: t => fencedSearch opener fuel t
    else
      match s with
      | [] => none
      | _ :: t => fencedSearch opener fuel t

def fencedJson (content : PyStr) : Option PyStr :=
  fencedSearch (chars "```json") (content.length + 1) content

def fencedBare (content : PyStr) : Option PyStr :=
  fencedSearch (chars "```") (content.length + 1) content

/-- The strategy-4 character loop: bracket depth, quote and backslash state;
returns the length of the prefix ending at the bracket that closes the first
top-level `[`. -/
def bracketLoop : PyStr → Nat → Bool → Bool → Option Nat
  | [], _, _, _ => none
  | ch :: rest, cnt, inStr, esc =>
    if esc then (bracketLoop rest cnt inStr false).map (· + 1)
    else if ch = '\\' then (bracketLoop rest cnt inStr true).map (· + 1)
    else if ch = '"' then (bracketLoop rest cnt (!inStr) esc).map (· + 1)
    else if !inStr && ch = '[' then (bracketLoop rest (cnt + 1) inStr esc).map (· + 1)
    else if !inStr && ch = ']' then
      if cnt = 1 then some 1 else (bracketLoop rest (cnt - 1) inStr esc).map (· + 1)
    else (bracketLoop rest cnt inStr esc).map (· + 1)

/-- Strategy 4: from the first `[`, scan to the matching `]`, parse that one
candidate, and return it only if it is a list (the Python loop `break`s after
the first balanced close either way). -/
def bracketExtract (content : PyStr) : Option (List Json) :=
  match findSub content ['['] with
  | none => none
  | some s0 =>
    match bracketLoop (content.drop s0) 0 false false with
    | none => none
    | some n =>
      match jsonLoads ((content.drop s0).take n) with
      | some (.arr l) => some l
      | _ => none

def parse_json_array (content : PyStr) : Json :=
  match (jsonLoads content).bind tryListOrCodes with
  | some r => r
  | none =>
    match (fencedJson content).bind (fun c => (jsonLoads c).bind tryListOrCodes) with
    | some r => r
    | none =>
      match (fencedBare content).bind (fun c => (jsonLoads c).bind tryListOrCodes) with
      | some r => r
      | none =>
        match bracketExtract content with
        | some l => .arr l
        | none => .arr []

/-- The claim's phrase "sequence of mapping objects". -/
def isMappingList : Json → Bool
  | .arr l => l.all fun j => match j with | .obj _ => true | _ => false
  | _ => false

/-- Counterexample for C6 as stated: on `{"codes": 0}` the function returns
the raw `codes` value `0`, which is not a sequence of mapping objects. -/
theorem claim_C6_counterexample :
    parse_json_array (chars "\x7b\"codes\": 0\x7d") = Json.num ['0']
      ∧ isMappingList (parse_json_array (chars "\x7b\"codes\": 0\x7d")) = false :=
  ⟨rfl, rfl⟩

/-- Claim C6 (amended): `parse_json_array` is total (never raises) and follows
the four-strategy cascade — a direct JSON array is returned unchanged, an
object with a `"codes"` key yields that key's raw value (of any JSON type,
not necessarily a list of mappings), the same normalization applies to the
contents of a `json`-tagged or bare fenced block when the earlier strategies
fail, and when all four strategies fail the result is the empty list. -/
theorem claim_C6_parse_json_array : ∀ content : PyStr,
    (∀ l, jsonLoads content = some (.arr l) → parse_json_array content = .arr l)
    ∧ (∀ kvs v, jsonLoads content = some (.obj kvs) →
        objGet kvs (chars "codes") = some v → parse_json_array content = v)
    ∧ ((jsonLoads content).bind tryListOrCodes = none →
        ∀ c r, fencedJson content = some c →
        (jsonLoads c).bind tryListOrCodes = some r → parse_json_array content = r)
    ∧ ((jsonLoads content).bind tryListOrCodes = none →
        ((fencedJson content).bind fun c => (jsonLoads c).bind tryListOrCodes) = none →
        ∀ c r, fencedBare content = some c →
        (jsonLoads c).bind tryListOrCodes = some r → parse_json_array content = r)
    ∧ ((jsonLoads content).bind tryListOrCodes = none →
        ((fencedJson content).bind fun c => (jsonLoads c).bind tryListOrCodes) = none →
        ((fencedBare content).bind fun c => (jsonLoads c).bind tryListOrCodes) = none →
        bracketExtract content = none →
        parse_json_array content = .arr []) := by
  intro content
  refine ⟨?_, ?_, ?_, ?_, ?_⟩
  · intro l h
    unfold parse_json_array
    rw [h]
    rfl
  · intro kvs v h hv
    unfold parse_json_array
    rw [h]
    show (match objGet kvs (chars "codes") with
      | some r => r
      | none =>
        match (fencedJson content).bind (fun c => (jsonLoads c).bind tryListOrCodes) with
        | some r => r
        | none =>
          match (fencedBare content).bind (fun c => (jsonLoads c).bind tryListOrCodes) with
          | some r => r
          | none =>
            match bracketExtract content with
            | some l => .arr l
            | none => .arr []) = v
    rw [hv]
  · intro h1 c r hc hr
    unfold parse_json_array
    rw [h1, hc]
    show (match (jsonLoads c).bind tryListOrCodes with
      | some r => r
      | none =>
        match (fencedBare content).bind (fun c => (jsonLoads c).bind tryListOrCodes) with
        | some r => r
        | none =>
          match bracketExtract content with
          | some l => Json.arr l
          | none => .arr []) = r
    rw [hr]
  · intro h1 h2 c r hc hr
    unfold parse_json_array
    rw [h1, h2, hc]
    show (match (jsonLoads c).bind tryListOrCodes with
      | some r => r
      | none =>
        match bracketExtract content with
        | some l => Json.arr l
        | none => .arr []) = r
    rw [hr]
  · intro h1 h2 h3 h4
    unfold parse_json_array
    rw [h1, h2, h3, h4]

/-- Witness for C6 (amended) on a direct JSON array. -/
theorem claim_C6_witness :
    parse_json_array (chars "[1]") = Json.arr [Json.num ['1']] :=
  (claim_C6_parse_json_array (chars "[1]")).1 [Json.num ['1']] rfl

/-! ## Coder agent (`src/thematic_lm/agents/coder.py`)

`code_chunk` returns the mock result in dry-run mode; otherwise it performs
the retried LLM call inside `try/except Exception` (absorbing exhausted
retries into an empty result with zero token usage), feeds the content through
`parse_json_array`, and filters/repairs the candidate codes and quotes.

The post-parse loop runs on arbitrary dynamically-typed JSON values, so the
model carries Python's `TypeError`/`KeyError` behavior explicitly: raising is
the `Except.error` channel of the model, and nothing catches it (the
`try/except` in the source only wraps the LLM call).  The retried LLM call's
overall outcome is an oracle argument (its internal behavior is modeled by
`call_with_retry`).  Python float values are modeled as exact rationals of
their literals (binary64 rounding is outside the model). -/

inductive PyErr where
  | typeError
  | keyError
deriving DecidableEq

structure TokenUsage where
  promptTokens : Nat
  completionTokens : Nat
deriving DecidableEq

structure Quote where
  quoteId : PyStr
  text : PyStr
  interactionId : PyStr
  chunkIndex : Nat
  startPos : Nat
  endPos : Nat

structure Code where
  label : Json
  quotes : List Quote

structure CoderResult where
  codes : List Code
  tokenUsage : TokenUsage

structure ChunkIn where
  text : PyStr
  chunkIndex : Nat

structure LlmResponse where
  content : PyStr
  usage : TokenUsage

/-- Python `needle in v` for a string needle: key test on dicts, substring
test on strings, element equality on lists, `TypeError` otherwise. -/
def pyContains (needle : PyStr) (v : Json) : Except PyErr Bool :=
  match v with
  | .obj kvs => .ok (objGet kvs needle).isSome
  | .str s => .ok (findSub s needle).isSome
  | .arr l => .ok (l.any fun j => match j with | .str t => t = needle | _ => false)
  | _ => .error .typeError

/-- Python `v[k]` for a string key: dict lookup (`KeyError` when absent),
`TypeError` on every other type (list and str need integer indices). -/
def pyGetItem (v : Json) (k : PyStr) : Except PyErr Json :=
  match v with
  | .obj kvs =>
    match objGet kvs k with
    | some x => .ok x
    | none => .error .keyError
  | _ => .error .typeError

/-- Python `v[:3]`: lists and strings slice, everything else raises. -/
def pySlice3 (v : Json) : Except PyErr (List Json) :=
  match v with
  | .arr l => .ok (l.take 3)
  | .str s => .ok ((s.take 3).map fun c => .str [c])
  | _ => .error .typeError

inductive PyNum where
  | int (i : Int)
  | finite (q : ℚ)
  | posInf
  | negInf
  | nan

def numIsFloat (lit : PyStr) : Bool := lit.any fun c => c = '.' || c = 'e' || c = 'E'

/-- Numeric value of a JSON numeral literal: `int()` of an integer literal,
the exact rational of a float literal, and the three non-finite constants. -/
def numValue (lit : PyStr) : PyNum :=
  if lit = chars "NaN" then .nan
  else if lit = chars "Infinity" then .posInf
  else if lit = chars "-Infinity" then .negInf
  else
    let neg : Bool := match lit with | '-' :: _ => true | _ => false
    let body : PyStr := match lit with | '-' :: r => r | _ => lit
    let intPart := body.takeWhile isAsciiDigit
    let rest1 := body.dropWhile isAsciiDigit
    let fracDigits : PyStr := match rest1 with
      | '.' :: r => r.takeWhile isAsciiDigit
      | _ => []
    let rest2 : PyStr := match rest1 with
      | '.' :: r => r.dropWhile isAsciiDigit
      | _ => rest1
    let expPair : Bool × PyStr := match rest2 with
      | 'e' :: '+' :: r => (false, r)
      | 'e' :: '-' :: r => (true, r)
      | 'e' :: r => (false, r)
      | 'E' :: '+' :: r => (false, r)
      | 'E' :: '-' :: r => (true, r)
      | 'E' :: r => (false, r)
      | _ => (false, [])
    if numIsFloat lit then
      let mant : ℚ := (parseNat intPart : ℚ)
        + (parseNat fracDigits : ℚ) / (10 : ℚ) ^ fracDigits.length
      let ex : Int := (if expPair.1 then -1 else 1) * (parseNat expPair.2 : Int)
      .finite ((if neg then -1 else 1) * mant * (10 : ℚ) ^ ex)
    else
      .int ((if neg then -1 else 1) * (parseNat intPart : Int))

/-- Operand of a numeric comparison: bools count as 0/1, numbers by value,
everything else is a `TypeError`. -/
def jsonToNum : Json → Option PyNum
  | .bool b => some (.int (if b then 1 else 0))
  | .num lit => some (numValue lit)
  | _ => none

def pyNumToQ : PyNum → Option ℚ
  | .int i => some (i : ℚ)
  | .finite q => some q
  | _ => none

def pyNumLe (a b : PyNum) : Bool :=
  match a, b with
  | .nan, _ => false
  | _, .nan => false
  | .negInf, _ => true
  | _, .negInf => false
  | _, .posInf => true
  | .posInf, _ => false
  | a, b =>
    match pyNumToQ a, pyNumToQ b with
    | some x, some y => decide (x ≤ y)
    | _, _ => false

def pyNumLt (a b : PyNum) : Bool :=
  match a, b with
  | .nan, _ => false
  | _, .nan => false
  | .posInf, _ => false
  | _, .posInf => true
  | .negInf, .negInf => false
  | .negInf, _ => true
  | _, .negInf => false
  | a, b =>
    match pyNumToQ a, pyNumToQ b with
    | some x, some y => decide (x < y)
    | _, _ => false

/-- A value usable as a slice index: ints and bools; floats raise. -/
def jsonSliceIdx : Json → Option Int
  | .bool b => some (if b then 1 else 0)
  | .num lit => match numValue lit with | .int i => some i | _ => none
  | _ => none

/-- Python's chained `0 <= start_pos < end_pos <= len(chunk_text)` with
short-circuiting: each operand is evaluated (raising `TypeError` when
non-numeric) only if the earlier comparisons held. -/
def dynChainOk (sp ep : Json) (len : Nat) : Except PyErr Bool :=
  match jsonToNum sp with
  | none => .error .typeError
  | some a =>
    if !pyNumLe (.int 0) a then .ok false
    else
      match jsonToNum ep with
      | none => .error .typeError
      | some b =>
        if !pyNumLt a b then .ok false
        else .ok (pyNumLe b (.int len))

def isNull : Json → Bool
  | .null => true
  | _ => false

/-- The repair path `chunk_text.index(quote_text)`: `TypeError` when the
quote text is not a string, `None` (dropped quote) when it is absent. -/
def repairDyn (quoteText : Json) (chunkText : PyStr) :
    Except PyErr (Option (PyStr × Nat × Nat)) :=
  match quoteText with
  | .str q => .ok ((findSub chunkText q).map fun i => (q, i, i + q.length))
  | _ => .error .typeError

/-- `normalize_quote_span` as invoked by `code_chunk` on raw JSON values:
a missing key and JSON `null` are both Python `None` (fast path skipped);
bools act as ints; float offsets pass the bounds check but raise `TypeError`
as slice indices; a non-string quote text never equals the extracted slice
and `chunk_text.index(non_str)` raises `TypeError` on the repair path.
A bool offset is normalized to its integer value (Python keeps the original
`True`/`False` object, which is observationally an int everywhere except the
f-string rendering inside the quote id). -/
def dynNormalize (quoteText : Json) (chunkText : PyStr) (sp ep : Option Json) :
    Except PyErr (Option (PyStr × Nat × Nat)) :=
  match sp, ep with
  | some s, some e =>
    if isNull s || isNull e then repairDyn quoteText chunkText
    else
      match dynChainOk s e chunkText.length with
      | .error err => .error err
      | .ok false => repairDyn quoteText chunkText
      | .ok true =>
        match jsonSliceIdx s, jsonSliceIdx e with
        | some si, some ei =>
          match quoteText with
          | .str q =>
            if sliceL chunkText si.toNat ei.toNat = q
            then .ok (some (q, si.toNat, ei.toNat))
            else repairDyn quoteText chunkText
          | _ => repairDyn quoteText chunkText
        | _, _ => .error .typeError
  | _, _ => repairDyn quoteText chunkText

/-- The shared shape of the two `for` loops: process items in order, append
the successful ones, skip the dropped ones, propagate a raise. -/
def collectSome {α β : Type} (g : α → Except PyErr (Option β)) :
    List α → List β → Except PyErr (List β)
  | [], acc => .ok acc
  | a :: t, acc =>
    match g a with
    | .error e => .error e
    | .ok none => collectSome g t acc
    | .ok (some b) => collectSome g t (acc ++ [b])

/-- One iteration of the quote loop: require a `"text"` entry, read the raw
values (`raw_quote.get` can only be reached on a dict — any non-dict with a
positive containment test has already raised in `pyGetItem`), normalize, and
mint the `Quote` with its encoded id. -/
def processQuote (chunkText : PyStr) (chunkIndex : Nat) (interactionId : PyStr)
    (rawQuote : Json) : Except PyErr (Option Quote) :=
  match pyContains (chars "text") rawQuote with
  | .error e => .error e
  | .ok false => .ok none
  | .ok true =>
    match pyGetItem rawQuote (chars "text") with
    | .error e => .error e
    | .ok tv =>
      let sp := match rawQuote with | .obj kvs => objGet kvs (chars "start_pos") | _ => none
      let ep := match rawQuote with | .obj kvs => objGet kvs (chars "end_pos") | _ => none
      match dynNormalize tv chunkText sp ep with
      | .error e => .error e
      | .ok none => .ok none
      | .ok (some (q, s, e)) =>
        .ok (some ⟨encode_quote_id interactionId chunkIndex s e none, q, interactionId,
          chunkIndex, s, e⟩)

/-- One iteration of the code loop: require `"label"` and `"quotes"` (in that
short-circuit order), cap the quotes at 3, keep the code only when at least
one quote survived. -/
def processCode (chunkText : PyStr) (chunkIndex : Nat) (interactionId : PyStr)
    (rawCode : Json) : Except PyErr (Option Code) :=
  match pyContains (chars "label") rawCode with
  | .error e => .error e
  | .ok false => .ok none
  | .ok true =>
    match pyContains (chars "quotes") rawCode with
    | .error e => .error e
    | .ok false => .ok none
    | .ok true =>
      match pyGetItem rawCode (chars "quotes") with
      | .error e => .error e
      | .ok quotesV =>
        match pySlice3 quotesV with
        | .error e => .error e
        | .ok rawQuotes =>
          match collectSome (processQuote chunkText chunkIndex interactionId) rawQuotes [] with
          | .error e => .error e
          | .ok valid =>
            if valid.isEmpty then .ok none
            else
              match pyGetItem rawCode (chars "label") with
              | .error e => .error e
              | .ok label => .ok (some ⟨label, valid⟩)

def processRawCodes (chunkText : PyStr) (chunkIndex : Nat) (interactionId : PyStr)
    (rawCodes : Json) : Except PyErr (List Code) :=
  match pySlice3 rawCodes with
  | .error e => .error e
  | .ok codes3 => collectSome (processCode chunkText chunkIndex interactionId) codes3 []

/-- `_mock_result`: fixed structure over the chunk's first 20 characters,
with a well-formed quote id from the codec. -/
def mock_result (identityId : PyStr) (chunk : ChunkIn) (interactionId : PyStr) : CoderResult :=
  { codes := [⟨.str (chars "Mock code for " ++ identityId),
      [⟨encode_quote_id interactionId chunk.chunkIndex 0 20 none, chunk.text.take 20,
        interactionId, chunk.chunkIndex, 0, 20⟩]⟩]
    tokenUsage := ⟨100, 50⟩ }

def code_chunk (dryRun : Bool) (identityId : PyStr) (chunk : ChunkIn)
    (interactionId : PyStr) (llm : Except AttemptErr LlmResponse) :
    Except PyErr CoderResult :=
  if dryRun then .ok (mock_result identityId chunk interactionId)
  else
    match llm with
    | .error _ => .ok ⟨[], ⟨0, 0⟩⟩
    | .ok resp =>
      match processRawCodes chunk.text chunk.chunkIndex interactionId
          (parse_json_array resp.content) with
      | .error e => .error e
      | .ok codes => .ok ⟨codes, resp.usage⟩

/-! ### Invariants of the quote/code processing loops -/

theorem repairDyn_slice {tv : Json} {chunkText q : PyStr} {s e : Nat}
    (h : repairDyn tv chunkText = .ok (some (q, s, e))) :
    sliceL chunkText s e = q := by
  cases tv with
  | str q' =>
    unfold repairDyn at h
    dsimp only at h
    cases hf : findSub chunkText q' with
    | none => rw [hf] at h; exact Option.noConfusion (Except.ok.inj h)
    | some i =>
      rw [hf] at h
      have h2 := Except.ok.inj h
      simp only [Option.map_some] at h2
      have h3 := Option.some.inj h2
      injection h3 with hq h4
      injection h4 with hs he
      subst hq; subst hs; subst he
      have hp := (findSub_some hf).1
      have ht := (take_of_isPrefixOf hp).1
      unfold sliceL
      have h5 : i + q'.length - i = q'.length := by omega
      rw [h5, ht]
  | null => exact Except.noConfusion h
  | bool b => exact Except.noConfusion h
  | num l => exact Except.noConfusion h
  | arr l => exact Except.noConfusion h
  | obj kvs => exact Except.noConfusion h

theorem dynNormalize_slice {tv : Json} {chunkText : PyStr} {sp ep : Option Json}
    {q : PyStr} {s e : Nat}
    (h : dynNormalize tv chunkText sp ep = .ok (some (q, s, e))) :
    sliceL chunkText s e = q := by
  cases sp with
  | none => exact repairDyn_slice h
  | some sv =>
    cases ep with
    | none => exact repairDyn_slice h
    | some ev =>
      unfold dynNormalize at h
      dsimp only at h
      split at h
      · exact repairDyn_slice h
      · cases hchain : dynChainOk sv ev chunkText.length with
        | error err => rw [hchain] at h; exact Except.noConfusion h
        | ok b =>
          rw [hchain] at h
          cases b with
          | false => exact repairDyn_slice h
          | true =>
            cases hsi : jsonSliceIdx sv with
            | none => rw [hsi] at h; exact Except.noConfusion h
            | some si =>
              rw [hsi] at h
              cases hei : jsonSliceIdx ev with
              | none => rw [hei] at h; exact Except.noConfusion h
              | some ei =>
                rw [hei] at h
                cases tv with
                | str q' =>
                  dsimp only at h
                  split at h
                  · rename_i hcond
                    have h2 := Option.some.inj (Except.ok.inj h)
                    injection h2 with hq h3
                    injection h3 with hs he
                    subst hq; subst hs; subst he
                    exact hcond
                  · exact repairDyn_slice h
                | null => exact repairDyn_slice h
                | bool b2 => exact repairDyn_slice h
                | num l2 => exact repairDyn_slice h
                | arr l2 => exact repairDyn_slice h
                | obj kvs => exact repairDyn_slice h

theorem collectSome_forall {α β : Type} (P : β → Prop) (g : α → Except PyErr (Option β))
    (hg : ∀ a b, g a = .ok (some b) → P b) :
    ∀ (l : List α) (acc res : List β), (∀ b ∈ acc, P b) →
      collectSome g l acc = .ok res → ∀ b ∈ res, P b := by
  intro l
  induction l with
  | nil =>
    intro acc res hacc h
    simp only [collectSome] at h
    have := Except.ok.inj h
    subst this
    exact hacc
  | cons a t ih =>
    intro acc res hacc h
    simp only [collectSome] at h
    cases hga : g a with
    | error e => rw [hga] at h; exact Except.noConfusion h
    | ok ob =>
      rw [hga] at h
      cases ob with
      | none => exact ih acc res hacc h
      | some b =>
        refine ih (acc ++ [b]) res ?_ h
        intro x hx
        rcases List.mem_append.mp hx with hx | hx
        · exact hacc x hx
        · rw [List.mem_singleton] at hx
          subst hx
          exact hg a _ hga

theorem collectSome_length {α β : Type} (g : α → Except PyErr (Option β)) :
    ∀ (l : List α) (acc res : List β), collectSome g l acc = .ok res →
      res.length ≤ acc.length + l.length := by
  intro l
  induction l with
  | nil =>
    intro acc res h
    simp only [collectSome] at h
    have := Except.ok.inj h
    subst this
    simp
  | cons a t ih =>
    intro acc res h
    simp only [collectSome] at h
    cases hga : g a with
    | error e => rw [hga] at h; exact Except.noConfusion h
    | ok ob =>
      rw [hga] at h
      cases ob with
      | none =>
        have := ih acc res h
        simp only [List.length_cons]
        omega
      | some b =>
        have h2 := ih (acc ++ [b]) res h
        simp only [List.length_append, List.length_cons, List.length_nil] at h2
        simp only [List.length_cons]
        omega

theorem pySlice3_length {v : Json} {l : List Json} (h : pySlice3 v = .ok l) :
    l.length ≤ 3 := by
  unfold pySlice3 at h
  split at h
  · have := Except.ok.inj h
    subst this
    simp only [List.length_take]
    omega
  · have := Except.ok.inj h
    subst this
    simp only [List.length_map, List.length_take]
    omega
  · exact Except.noConfusion h

theorem processQuote_slice {chunkText : PyStr} {chunkIndex : Nat} {interactionId : PyStr}
    {rq : Json} {qt : Quote}
    (h : processQuote chunkText chunkIndex interactionId rq = .ok (some qt)) :
    sliceL chunkText qt.startPos qt.endPos = qt.text := by
  unfold processQuote at h
  split at h
  · exact Except.noConfusion h
  · exact Option.noConfusion (Except.ok.inj h)
  · split at h
    · exact Except.noConfusion h
    · dsimp only at h
      split at h
      · exact Except.noConfusion h
      · exact Option.noConfusion (Except.ok.inj h)
      · rename_i hdyn
        have := Option.some.inj (Except.ok.inj h)
        subst this
        exact dynNormalize_slice hdyn

theorem processCode_quotes {chunkText : PyStr} {chunkIndex : Nat} {interactionId : PyStr}
    {rc : Json} {c : Code}
    (h : processCode chunkText chunkIndex interactionId rc = .ok (some c)) :
    ∀ qt ∈ c.quotes, sliceL chunkText qt.startPos qt.endPos = qt.text := by
  unfold processCode at h
  split at h
  · exact Except.noConfusion h
  · exact Option.noConfusion (Except.ok.inj h)
  · split at h
    · exact Except.noConfusion h
    · exact Option.noConfusion (Except.ok.inj h)
    · split at h
      · exact Except.noConfusion h
      · split at h
        · exact Except.noConfusion h
        · split at h
          · exact Except.noConfusion h
          · rename_i valid hvalid
            split at h
            · exact Option.noConfusion (Except.ok.inj h)
            · split at h
              · exact Except.noConfusion h
              · have := Option.some.inj (Except.ok.inj h)
                subst this
                exact collectSome_forall
                  (fun qt => sliceL chunkText qt.startPos qt.endPos = qt.text)
                  (processQuote chunkText chunkIndex interactionId)
                  (fun a b hab => processQuote_slice hab)
                  _ [] valid (fun b hb => absurd hb (List.not_mem_nil b)) hvalid

theorem processCode_count {chunkText : PyStr} {chunkIndex : Nat} {interactionId : PyStr}
    {rc : Json} {c : Code}
    (h : processCode chunkText chunkIndex interactionId rc = .ok (some c)) :
    1 ≤ c.quotes.length ∧ c.quotes.length ≤ 3 := by
  unfold processCode at h
  split at h
  · exact Except.noConfusion h
  · exact Option.noConfusion (Except.ok.inj h)
  · split at h
    · exact Except.noConfusion h
    · exact Option.noConfusion (Except.ok.inj h)
    · split at h
      · exact Except.noConfusion h
      · split at h
        · exact Except.noConfusion h
        · rename_i rawQuotes hraw
          split at h
          · exact Except.noConfusion h
          · rename_i valid hvalid
            split at h
            · exact Option.noConfusion (Except.ok.inj h)
            · rename_i hne
              split at h
              · exact Except.noConfusion h
              · have := Option.some.inj (Except.ok.inj h)
                subst this
                constructor
                · rcases valid with _ | ⟨x, xs⟩
                  · simp at hne
                  · simp
                · have h1 := collectSome_length
                    (processQuote chunkText chunkIndex interactionId) rawQuotes [] valid hvalid
                  have h2 := pySlice3_length hraw
                  simp only [List.length_nil] at h1
                  dsimp only
                  omega

/-- The spec's constraint on a code label: a non-empty string of at most 200
characters (written from the spec's words, to be compared with what
`code_chunk` actually guarantees). -/
def specLabelOk : Json → Bool
  | .str l => !l.isEmpty && decide (l.length ≤ 200)
  | _ => false

/-- C1: for every mode, chunk, interaction id and LLM outcome, every quote of
every code of a successfully returned `CoderResult` satisfies
`chunk.text[start_pos:end_pos] == quote.text` with code-point slicing relative
to the chunk. -/
theorem claim_C1_quote_slice (dryRun : Bool) (identityId : PyStr) (chunk : ChunkIn)
    (interactionId : PyStr) (llm : Except AttemptErr LlmResponse) (res : CoderResult)
    (h : code_chunk dryRun identityId chunk interactionId llm = .ok res) :
    ∀ code ∈ res.codes, ∀ qt ∈ code.quotes,
      sliceL chunk.text qt.startPos qt.endPos = qt.text := by
  unfold code_chunk at h
  split at h
  · injection h with h
    subst h
    intro code hc qt hq
    simp only [mock_result, List.mem_singleton] at hc
    subst hc
    simp only [List.mem_singleton] at hq
    subst hq
    simp [sliceL]
  · cases llm with
    | error e1 =>
      dsimp only at h
      injection h with h
      subst h
      intro code hc
      exact absurd hc (List.not_mem_nil code)
    | ok resp =>
      dsimp only at h
      cases hp : processRawCodes chunk.text chunk.chunkIndex interactionId
          (parse_json_array resp.content) with
      | error e2 => rw [hp] at h; exact Except.noConfusion h
      | ok codes =>
        rw [hp] at h
        injection h with h
        subst h
        intro code hc qt hq
        unfold processRawCodes at hp
        cases hs3 : pySlice3 (parse_json_array resp.content) with
        | error e3 => rw [hs3] at hp; exact Except.noConfusion hp
        | ok codes3 =>
          rw [hs3] at hp
          exact collectSome_forall
            (fun c => ∀ q ∈ c.quotes, sliceL chunk.text q.startPos q.endPos = q.text)
            (processCode chunk.text chunk.chunkIndex interactionId)
            (fun a b hab => processCode_quotes hab)
            codes3 [] codes (fun b hb => absurd hb (List.not_mem_nil b)) hp code hc qt hq

theorem claim_C1_witness : sliceL (chars "hello") 0 20 = (chars "hello").take 20 := by
  have h := claim_C1_quote_slice true (chars "identity") ⟨chars "hello", 3⟩ (chars "ab")
    (Except.error AttemptErr.timeout)
    (mock_result (chars "identity") ⟨chars "hello", 3⟩ (chars "ab")) rfl
  exact h _ (List.Mem.head _) _ (List.Mem.head _)

/-- C2 (code_bug): exhausted retries are indeed absorbed into an empty result
with zero token usage, for every chunk and interaction id; but `code_chunk`
does not return a well-formed `CoderResult` for every response content —
content `"[1]"` parses to a list whose element is the integer `1`, and
`"label" not in 1` raises an uncaught `TypeError` that propagates out of the
agent call. -/
theorem claim_C2_code_chunk_behavior :
    (∀ identityId chunk interactionId err,
      code_chunk false identityId chunk interactionId (.error err)
        = .ok ⟨[], ⟨0, 0⟩⟩)
    ∧ code_chunk false (chars "identity") ⟨chars "chunk text", 0⟩ (chars "abc")
        (.ok ⟨chars "[1]", ⟨5, 7⟩⟩) = .error .typeError := by
  constructor
  · intro identityId chunk interactionId err
    rfl
  · rfl

/-- C8 (counterexample): the label of a returned code is never validated —
an LLM response with an empty-string label yields a `CoderResult` containing
a code whose label violates the spec's non-empty-string constraint. -/
theorem claim_C8_counterexample :
    code_chunk false (chars "identity") ⟨chars "hello", 0⟩ (chars "ab")
        (.ok ⟨chars "[\x7b\"label\": \"\", \"quotes\": [\x7b\"text\": \"\"\x7d]\x7d]", ⟨1, 2⟩⟩)
      = .ok ⟨[⟨.str [], [⟨chars "ab:ch_0:0-0", [], chars "ab", 0, 0, 0⟩]⟩], ⟨1, 2⟩⟩
    ∧ ((code_chunk false (chars "identity") ⟨chars "hello", 0⟩ (chars "ab")
        (.ok ⟨chars "[\x7b\"label\": \"\", \"quotes\": [\x7b\"text\": \"\"\x7d]\x7d]", ⟨1, 2⟩⟩)).map
        fun r => r.codes.all fun c => specLabelOk c.label) = .ok false :=
  ⟨rfl, rfl⟩

/-- C8 (amended): every successfully returned `CoderResult` has at most 3
codes, and every code has between 1 and 3 quotes (a candidate code whose
quotes all fail normalization is dropped entirely); the label constraint of
the original claim does not hold (see the counterexample). -/
theorem claim_C8_code_quote_bounds (dryRun : Bool) (identityId : PyStr) (chunk : ChunkIn)
    (interactionId : PyStr) (llm : Except AttemptErr LlmResponse) (res : CoderResult)
    (h : code_chunk dryRun identityId chunk interactionId llm = .ok res) :
    res.codes.length ≤ 3 ∧
      ∀ code ∈ res.codes, 1 ≤ code.quotes.length ∧ code.quotes.length ≤ 3 := by
  unfold code_chunk at h
  split at h
  · injection h with h
    subst h
    constructor
    · simp [mock_result]
    · intro code hc
      simp only [mock_result, List.mem_singleton] at hc
      subst hc
      simp
  · cases llm with
    | error e1 =>
      dsimp only at h
      injection h with h
      subst h
      constructor
      · simp
      · intro code hc
        exact absurd hc (List.not_mem_nil code)
    | ok resp =>
      dsimp only at h
      cases hp : processRawCodes chunk.text chunk.chunkIndex interactionId
          (parse_json_array resp.content) with
      | error e2 => rw [hp] at h; exact Except.noConfusion h
      | ok codes =>
        rw [hp] at h
        injection h with h
        subst h
        unfold processRawCodes at hp
        cases hs3 : pySlice3 (parse_json_array resp.content) with
        | error e3 => rw [hs3] at hp; exact Except.noConfusion hp
        | ok codes3 =>
          rw [hs3] at hp
          constructor
          · have h1 := collectSome_length
              (processCode chunk.text chunk.chunkIndex interactionId) codes3 [] codes hp
            have h2 := pySlice3_length hs3
            simp only [List.length_nil] at h1
            dsimp only
            omega
          · intro code hc
            exact collectSome_forall
              (fun c => 1 ≤ c.quotes.length ∧ c.quotes.length ≤ 3)
              (processCode chunk.text chunk.chunkIndex interactionId)
              (fun a b hab => processCode_count hab)
              codes3 [] codes (fun b hb => absurd hb (List.not_mem_nil b)) hp code hc

theorem claim_C8_witness :
    (mock_result (chars "identity") ⟨chars "hello", 0⟩ (chars "ab")).codes.length ≤ 3 :=
  (claim_C8_code_quote_bounds true (chars "identity") ⟨chars "hello", 0⟩ (chars "ab")
    (Except.error AttemptErr.timeout)
    (mock_result (chars "identity") ⟨chars "hello", 0⟩ (chars "ab")) rfl).1

end ThematicLM
